import Mathlib

/-!
# Verification of the saadiyatwod ranking and points-aggregation engine

A shallow embedding, in Lean, of the pure core of the saadiyatwod
repository: the workout-type classifier (`src/lib/wodType.ts`), the
day ranker `rankForDate`, the points aggregator `computeMonthlyPoints`,
the profile statistics `computeStats` and the attendance streak
(`src/unnamed/part_003`, newest copy, and `src/app/page.tsx`), and the
time input parser (`src/lib/wodType.ts`).

JavaScript strings are modelled as `List Char`; JS `number` fields that
hold integers are `Int`/`Nat`; point totals (which mix integers with the
0.5 Rx bonus) are `Rat`; `null`/`undefined` is `Option`.  JS `Map`s are
association lists with JS `Map` insertion-order semantics (set of an
existing key updates in place, a new key is appended).  `Array.prototype.sort`
is a stable sort by the comparator, modelled as insertion sort with the
boolean relation "comparator result is at most 0" (the two agree for the
total preorders used here).  The wall clock (`new Date()`), read by
`computeStats` and the streak code, is passed as an explicit `today`
parameter.
-/

set_option maxHeartbeats 1000000
set_option synthInstance.maxHeartbeats 400000

namespace Saadiyat

/-- JS strings, modelled as lists of characters. -/
abbrev Str := List Char

/-- JS string truthiness for nullable string fields: `null`/`undefined`
and the empty string are falsy. -/
def truthy : Option Str → Bool
  | none => false
  | some s => !s.isEmpty

/-- The five disciplines of `src/lib/wodType.ts`. -/
inductive WorkoutType where
  | TIME
  | AMRAP
  | CALORIES
  | NO_SCORE
  | UNKNOWN
deriving DecidableEq, Repr

/-! ## Text matching primitives for the classifier regexes

`src/lib/wodType.ts` tests lowercase text against JS regexes.  Each regex
is embedded as an executable matcher over `List Char`.  `\w` is
`[A-Za-z0-9_]`, `\s` is whitespace, `\b` is a word boundary. -/

/-- JS `\w` character class (ASCII letters, digits, underscore). -/
def isWordChar (c : Char) : Bool := c.isAlpha || c.isDigit || c == '_'

/-- JS `\s` (the engine's inputs are ASCII; exotic Unicode whitespace is
out of the modelled domain). -/
def isSpaceCh (c : Char) : Bool := c.isWhitespace

def isDigitCh (c : Char) : Bool := c.isDigit

/-- All suffixes of `s` reachable by consuming one or more leading
whitespace characters: the possible remainders after a `\s+`. -/
def spaceSuffixes : Str → List Str
  | c :: rest => if isSpaceCh c then rest :: spaceSuffixes rest else []
  | [] => []

/-- Remainders after `\s*` (zero or more whitespace characters). -/
def spaceSuffixes0 (s : Str) : List Str := s :: spaceSuffixes s

/-- Remainders after `\d+` (one or more digits). -/
def digitSuffixes : Str → List Str
  | c :: rest => if isDigitCh c then rest :: digitSuffixes rest else []
  | [] => []

/-- Remainders after `.*` (any characters except line terminators). -/
def dotSuffixes : Str → List Str
  | [] => [[]]
  | c :: rest =>
    (c :: rest) ::
      (if c == '\n' || c == '\r' || c.toNat == 0x2028 || c.toNat == 0x2029 then []
       else dotSuffixes rest)

/-- Match literal words separated by `\s+` at the current position. -/
def matchPhrase : List Str → Str → Bool
  | [], _ => true
  | [w], s => w.isPrefixOf s
  | w :: ws, s =>
    w.isPrefixOf s && (spaceSuffixes (s.drop w.length)).any (fun s2 => matchPhrase ws s2)

/-- Search for a `\b`-free pattern anywhere in the string. -/
def containsPhrase (ws : List Str) (s : Str) : Bool := s.tails.any (matchPhrase ws)

/-- `\b` on the left of a match: start of string or previous char not `\w`. -/
def boundaryL : Option Char → Bool
  | none => true
  | some c => !isWordChar c

/-- `\b` on the right of a match: end of string or next char not `\w`. -/
def boundaryR : Str → Bool
  | [] => true
  | c :: _ => !isWordChar c

/-- Try a position-wise matcher at every position, tracking the previous
character for word boundaries. -/
def searchPos (p : Option Char → Str → Bool) : Option Char → Str → Bool :=
  fun prev s =>
    p prev s ||
      match s with
      | c :: rest => searchPos p (some c) rest
      | [] => false

/-- `\bw\b` for a literal word `w` made of word characters. -/
def containsWordB (w : Str) (s : Str) : Bool :=
  searchPos (fun prev s2 => boundaryL prev && w.isPrefixOf s2 && boundaryR (s2.drop w.length))
    none s

/-- `\be[2-9]mom\b` at the current position. -/
def matchE2to9mom (prev : Option Char) (s : Str) : Bool :=
  boundaryL prev &&
    match s with
    | 'e' :: d :: rest =>
      ('2'.toNat ≤ d.toNat && d.toNat ≤ '9'.toNat) &&
        ['m', 'o', 'm'].isPrefixOf rest && boundaryR (rest.drop 3)
    | _ => false

/-- `every\s+\d+\s+minute` at the current position. -/
def matchEveryNMinute (s : Str) : Bool :=
  (("every").toList).isPrefixOf s &&
    (spaceSuffixes (s.drop 5)).any (fun s2 =>
      (digitSuffixes s2).any (fun s3 =>
        (spaceSuffixes s3).any (fun s4 => (("minute").toList).isPrefixOf s4)))

/-- `\bword\s+<alt>` at the current position, where `alt` checks the rest. -/
def matchWordSpaceAlt (w : Str) (alt : Str → Bool) (prev : Option Char) (s : Str) : Bool :=
  boundaryL prev && w.isPrefixOf s && (spaceSuffixes (s.drop w.length)).any alt

/-- `(cal|calories)\b` at the current position. -/
def altCalRest (s : Str) : Bool :=
  ((("cal").toList).isPrefixOf s && boundaryR (s.drop 3)) ||
    ((("calories").toList).isPrefixOf s && boundaryR (s.drop 8))

/-- `score\s*[:\-]\s*(rounds|reps)` at the current position. -/
def matchScoreColon (s : Str) : Bool :=
  (("score").toList).isPrefixOf s &&
    (spaceSuffixes0 (s.drop 5)).any (fun s2 =>
      match s2 with
      | c :: s3 =>
        (c == ':' || c == '-') &&
          (spaceSuffixes0 s3).any (fun s4 =>
            (("rounds").toList).isPrefixOf s4 || (("reps").toList).isPrefixOf s4)
      | [] => false)

/-- `\btime\s*cap\b` at the current position. -/
def matchTimeCap (prev : Option Char) (s : Str) : Bool :=
  boundaryL prev && (("time").toList).isPrefixOf s &&
    (spaceSuffixes0 (s.drop 4)).any (fun s2 =>
      (("cap").toList).isPrefixOf s2 && boundaryR (s2.drop 3))

/-- `complete\s+.*for\s+time` at the current position. -/
def matchCompleteForTime (s : Str) : Bool :=
  (("complete").toList).isPrefixOf s &&
    (spaceSuffixes (s.drop 8)).any (fun s2 =>
      (dotSuffixes s2).any (fun s3 =>
        matchPhrase [("for").toList, ("time").toList] s3))

/-! ## The classifier (`detectWorkoutTypeFromWodText`, src/lib/wodType.ts) -/

/-- The NO_SCORE cue block of `detectWorkoutTypeFromWodText` (checked first). -/
def hasNoScoreCue (t : Str) : Bool :=
  containsWordB (("emom").toList) t ||
  searchPos matchE2to9mom none t ||
  containsPhrase [("every").toList, ("minute").toList, ("on").toList, ("the").toList,
    ("minute").toList] t ||
  t.tails.any matchEveryNMinute ||
  containsPhrase [("for").toList, ("quality").toList] t ||
  containsPhrase [("not").toList, ("for").toList, ("time").toList] t ||
  containsWordB (("skill").toList) t ||
  containsWordB (("strength").toList) t

/-- The CALORIES cue block (checked second). -/
def hasCaloriesCue (t : Str) : Bool :=
  searchPos (matchWordSpaceAlt (("max").toList) altCalRest) none t ||
  searchPos (matchWordSpaceAlt (("for").toList) altCalRest) none t ||
  searchPos (matchWordSpaceAlt (("calorie").toList)
    (fun s2 => (("challenge").toList).isPrefixOf s2 && boundaryR (s2.drop 9))) none t

/-- The AMRAP cue block (checked third). -/
def hasAmrapCue (t : Str) : Bool :=
  containsWordB (("amrap").toList) t ||
  containsPhrase [("as").toList, ("many").toList, ("rounds").toList, ("as").toList,
    ("possible").toList] t ||
  containsPhrase [("as").toList, ("many").toList, ("reps").toList, ("as").toList,
    ("possible").toList] t ||
  containsPhrase [("max").toList, ("rounds").toList] t ||
  containsPhrase [("max").toList, ("reps").toList] t ||
  t.tails.any matchScoreColon

/-- The TIME cue block (checked last; the function returns TIME either way). -/
def hasTimeCue (t : Str) : Bool :=
  containsPhrase [("for").toList, ("time").toList] t ||
  searchPos matchTimeCap none t ||
  containsWordB (("tcap").toList) t ||
  t.tails.any matchCompleteForTime

/-- JS `String.prototype.trim` on the modelled (ASCII) domain. -/
def trimChars (s : Str) : Str :=
  ((s.dropWhile isSpaceCh).reverse.dropWhile isSpaceCh).reverse

/-- `detectWorkoutTypeFromWodText` (src/lib/wodType.ts lines 8-61): trim,
empty text is UNKNOWN, otherwise lowercase and check the cue blocks in
precedence order NO_SCORE, CALORIES, AMRAP, TIME; non-empty text with no
cue defaults to TIME. -/
def detectWorkoutTypeFromWodText (rawText : Option Str) : WorkoutType :=
  let text := trimChars (rawText.getD [])
  if text.isEmpty then WorkoutType.UNKNOWN
  else
    let t := text.map Char.toLower
    if hasNoScoreCue t then WorkoutType.NO_SCORE
    else if hasCaloriesCue t then WorkoutType.CALORIES
    else if hasAmrapCue t then WorkoutType.AMRAP
    else if hasTimeCue t then WorkoutType.TIME
    else WorkoutType.TIME

/-! ## Data model (`ScoreRaw`, `WodRaw` of src/unnamed/part_003)

`athlete_id` is `Option Str`: the scores table made it nullable for guest
rows (supabase/migration_v8.sql), although the TypeScript annotation still
says `string`.  `workout_type_override` is stored as text and cast to
`WorkoutType | null` at its only use site, so it is embedded as
`Option WorkoutType`. -/

structure ScoreRaw where
  wod_date : Str
  athlete_id : Option Str
  time_seconds : Option Int
  amrap_rounds : Option Int
  amrap_reps : Option Int
  team_id : Option Str
  is_rx : Bool
deriving DecidableEq, Repr

structure WodRaw where
  wod_date : Str
  wod_text : Str
  workout_type_override : Option WorkoutType
deriving DecidableEq, Repr

/-- `getEffectiveType` (part_003 lines 550-552). -/
def getEffectiveType (wod : WodRaw) : WorkoutType :=
  wod.workout_type_override.getD (detectWorkoutTypeFromWodText (some wod.wod_text))

/-! ## The day ranker (`rankForDate`, part_003 lines 555-607) -/

/-- `x ≤ y` on `time_seconds ?? Infinity` (`none` plays `Infinity`). -/
def timeLeB : Option Int → Option Int → Bool
  | _, none => true
  | none, some _ => false
  | some a, some b => a ≤ b

/-- `x < y` on `time_seconds ?? Infinity`. -/
def timeLtB : Option Int → Option Int → Bool
  | some a, some b => a < b
  | some _, none => true
  | none, _ => false

/-- The AMRAP/CALORIES composite sort key
`(amrap_rounds ?? -1) * 10000 + (amrap_reps ?? -1)`. -/
def amrapKey (s : ScoreRaw) : Int :=
  s.amrap_rounds.getD (-1) * 10000 + s.amrap_reps.getD (-1)

/-- The sort comparator of `rankForDate` as a boolean relation:
`scoreLe type a b` iff the JS comparator returns at most 0 on `(a, b)`
(TIME ascending by `time_seconds ?? Infinity`, otherwise descending by
the composite key). -/
def scoreLe (type : WorkoutType) (a b : ScoreRaw) : Bool :=
  if type == WorkoutType.TIME then timeLeB a.time_seconds b.time_seconds
  else amrapKey b ≤ amrapKey a

/-- Insert into a le-sorted list, keeping the inserted element before
later elements it compares le to: together with `sortByLe` this is the
stable sort that `Array.prototype.sort` performs with this comparator. -/
def insertLe (le : ScoreRaw → ScoreRaw → Bool) (a : ScoreRaw) : List ScoreRaw → List ScoreRaw
  | [] => [a]
  | b :: rest => if le a b then a :: b :: rest else b :: insertLe le a rest

/-- Stable sort by the boolean relation `le` (see `insertLe`). -/
def sortByLe (le : ScoreRaw → ScoreRaw → Bool) : List ScoreRaw → List ScoreRaw
  | [] => []
  | a :: rest => insertLe le a (sortByLe le rest)

/-- First-occurrence de-duplication by a key, as performed by the
`seen` set / `teamMap` of `rankForDate` (part_003 lines 558-568). -/
def dedupByKey {κ : Type} [DecidableEq κ] (key : ScoreRaw → κ) :
    List κ → List ScoreRaw → List ScoreRaw
  | _, [] => []
  | seen, s :: rest =>
    if key s ∈ seen then dedupByKey key seen rest
    else s :: dedupByKey key (key s :: seen) rest

/-- One representative row per truthy `team_id`, in first-seen order
(the values of the JS `teamMap`). -/
def teamRepsOf (scores : List ScoreRaw) : List ScoreRaw :=
  dedupByKey (fun s => s.team_id) [] (scores.filter (fun s => truthy s.team_id))

/-- Solo rows de-duplicated by `athlete_id`, in first-seen order. -/
def individualsOf (scores : List ScoreRaw) : List ScoreRaw :=
  dedupByKey (fun s => s.athlete_id) [] (scores.filter (fun s => !truthy s.team_id))

/-- The tie test of the banding loop (part_003 lines 590-592). -/
def tiedB (type : WorkoutType) (a b : ScoreRaw) : Bool :=
  if type == WorkoutType.TIME then a.time_seconds == b.time_seconds
  else a.amrap_rounds.getD (-1) == b.amrap_rounds.getD (-1) &&
    a.amrap_reps.getD (-1) == b.amrap_reps.getD (-1)

/-- Expansion of one consumed representative into athlete ids
(part_003 lines 594-599): a team row contributes every same-team row's
athlete id, a solo row contributes its own. -/
def expandEntry (scores : List ScoreRaw) (s : ScoreRaw) : List (Option Str) :=
  if truthy s.team_id then
    (scores.filter (fun x => x.team_id == s.team_id)).map (fun x => x.athlete_id)
  else [s.athlete_id]

/-- JS `[...new Set(l)]`: first-occurrence de-duplication. -/
def dedupAcc : List (Option Str) → List (Option Str) → List (Option Str)
  | _, [] => []
  | seen, x :: rest =>
    if x ∈ seen then dedupAcc seen rest else x :: dedupAcc (x :: seen) rest

def dedupIds (l : List (Option Str)) : List (Option Str) := dedupAcc [] l

/-- The raw (pre-`Set`) member list of one band: the run of entries tied
with the first, each expanded. -/
def rawBand (scores : List ScoreRaw) (type : WorkoutType) (cur : ScoreRaw)
    (rest : List ScoreRaw) : List (Option Str) :=
  ((cur :: rest.takeWhile (fun n => tiedB type cur n)).map (expandEntry scores)).flatten

/-- The banding loop of `rankForDate` (part_003 lines 581-605): while
entries remain and the running rank is at most 3, consume the run tied
with the current entry, emit its expanded and de-duplicated member list,
and advance the rank by the raw (pre-de-duplication) member count.  The
loop index `i` strictly increases, so the `while` loop runs at most
`sorted.length` times; the recursion is bounded by that fuel (`bandLoop`
below supplies it). -/
def bandGo (scores : List ScoreRaw) (type : WorkoutType) :
    Nat → List ScoreRaw → Nat → List (List (Option Str))
  | _, [], _ => []
  | 0, _ :: _, _ => []
  | fuel + 1, cur :: rest, rank =>
    if rank ≤ 3 then
      let raw := rawBand scores type cur rest
      dedupIds raw ::
        bandGo scores type fuel (rest.dropWhile (fun n => tiedB type cur n))
          (rank + raw.length)
    else []

def bandLoop (scores : List ScoreRaw) (type : WorkoutType)
    (sorted : List ScoreRaw) (rank : Nat) : List (List (Option Str)) :=
  bandGo scores type sorted.length sorted rank

/-- `rankForDate` (part_003 lines 555-607): returns the first (at most
three) rank bands of athlete ids for one day's scores. -/
def rankForDate (scores : List ScoreRaw) (type : WorkoutType) : List (List (Option Str)) :=
  if type == WorkoutType.NO_SCORE || type == WorkoutType.UNKNOWN then []
  else
    let reps := teamRepsOf scores ++ individualsOf scores
    bandLoop scores type (sortByLe (scoreLe type) reps) 1

/-! ## The points aggregator (`computeMonthlyPoints`, part_003 lines 610-658) -/

/-- One accumulator entry: `{gold, silver, bronze, total}`. -/
structure Entry where
  gold : Nat
  silver : Nat
  bronze : Nat
  total : Rat
deriving DecidableEq, Repr

def Entry.zero : Entry := ⟨0, 0, 0, 0⟩

/-- The JS `Map` keyed by athlete id (`null` for guest rows), as an
association list in insertion order. -/
abbrev PMap := List (Option Str × Entry)

/-- JS `Map.prototype.get`. -/
def pmapGet (m : PMap) (id : Option Str) : Option Entry :=
  (m.find? (fun p => p.1 == id)).map (fun p => p.2)

/-- JS `Map.prototype.set`: update in place, or append a new key. -/
def pmapSet : PMap → Option Str → Entry → PMap
  | [], id, e => [(id, e)]
  | (k, v) :: rest, id, e =>
    if k == id then (k, e) :: rest else (k, v) :: pmapSet rest id e

/-- The `ensure(id)` / mutate pattern of `computeMonthlyPoints`: apply
`f` to the existing entry, or to a fresh zero entry. -/
def pmapUpd (m : PMap) (id : Option Str) (f : Entry → Entry) : PMap :=
  pmapSet m id (f ((pmapGet m id).getD Entry.zero))

/-- `rank === 1 ? 3 : rank === 2 ? 2 : rank === 3 ? 1 : 0`. -/
def pointsForRank (rank : Nat) : Nat :=
  if rank == 1 then 3 else if rank == 2 then 2 else if rank == 3 then 1 else 0

/-- The per-member mutation of the award loop (part_003 lines 642-645):
bump the medal counter selected by `p` and add `p` to the total. -/
def applyMedal (p : Nat) (e : Entry) : Entry :=
  let e1 :=
    if p == 3 then { e with gold := e.gold + 1 }
    else if p == 2 then { e with silver := e.silver + 1 }
    else { e with bronze := e.bronze + 1 }
  { e1 with total := e1.total + (p : Rat) }

/-- Award one band: every member receives the identical `p`. -/
def awardBand (p : Nat) (m : PMap) (band : List (Option Str)) : PMap :=
  band.foldl (fun acc id => pmapUpd acc id (applyMedal p)) m

/-- The award walk over a day's bands (part_003 lines 636-648): points by
the band's starting position, stop at the first band whose position earns
nothing, advance the position by the band's size. -/
def awardBands : PMap → List (List (Option Str)) → Nat → PMap
  | m, [], _ => m
  | m, band :: rest, rank =>
    let p := pointsForRank rank
    if p == 0 then m
    else awardBands (awardBand p m band) rest (rank + band.length)

/-- The medal phase of `computeMonthlyPoints` (part_003 lines 632-649):
for each wod, rank that date's scores and run the award walk. -/
def medalPhase (wods : List WodRaw) (scores : List ScoreRaw) : PMap :=
  wods.foldl
    (fun m wod =>
      awardBands m
        (rankForDate (scores.filter (fun s => s.wod_date == wod.wod_date))
          (getEffectiveType wod))
        1)
    []

/-- The Rx map: athlete id to the list of distinct dates with an
`is_rx` record on a scoreable wod (JS `Map` of `Set`s, insertion order). -/
abbrev RxMap := List (Str × List Str)

/-- Add a date to an athlete's date set (no duplicates). -/
def rxAdd : RxMap → Str → Str → RxMap
  | [], id, d => [(id, [d])]
  | (k, ds) :: rest, id, d =>
    if k == id then (k, if d ∈ ds then ds else ds ++ [d]) :: rest
    else (k, ds) :: rxAdd rest id d

/-- The guard of the rxMap loop (part_003 lines 622-629): skip non-Rx
rows, guest rows, dates with no wod and non-scoreable wods. -/
def rxQualifies (wods : List WodRaw) (s : ScoreRaw) : Bool :=
  s.is_rx && truthy s.athlete_id &&
    match wods.find? (fun w => w.wod_date == s.wod_date) with
    | none => false
    | some wod =>
      let t := getEffectiveType wod
      !(t == WorkoutType.NO_SCORE || t == WorkoutType.UNKNOWN)

/-- One iteration of the rxMap loop. -/
def rxStep (wods : List WodRaw) (m : RxMap) (s : ScoreRaw) : RxMap :=
  if rxQualifies wods s then
    match s.athlete_id with
    | some a => rxAdd m a s.wod_date
    | none => m
  else m

/-- Build the rxMap (part_003 lines 620-630). -/
def buildRxMap (wods : List WodRaw) (scores : List ScoreRaw) : RxMap :=
  scores.foldl (rxStep wods) []

/-- The athlete keys of an rxMap. -/
def rxMapKeys (m : RxMap) : List Str := m.map (fun p => p.1)

/-- An athlete's date set in an rxMap (empty when absent). -/
def rxMapDates (m : RxMap) (a : Str) : List Str :=
  ((m.find? (fun p => p.1 == a)).map (fun p => p.2)).getD []

/-- The athlete's set of qualifying Rx dates (empty when absent). -/
def rxDates (wods : List WodRaw) (scores : List ScoreRaw) (a : Str) : List Str :=
  (((buildRxMap wods scores).find? (fun p => p.1 == a)).map (fun p => p.2)).getD []

/-- The Rx bonus phase (part_003 lines 651-655): for each rxMap entry,
`ensure(id)` and add `dates.size * 0.5` to the total. -/
def addRxBonus (m : PMap) (rx : RxMap) : PMap :=
  rx.foldl
    (fun acc p =>
      pmapUpd acc (some p.1)
        (fun e => { e with total := e.total + (p.2.length : Rat) * (1 / 2) }))
    m

/-- `computeMonthlyPoints` (part_003 lines 610-658): the medal phase
followed by the Rx bonus phase. -/
def computeMonthlyPoints (wods : List WodRaw) (scores : List ScoreRaw) : PMap :=
  addRxBonus (medalPhase wods scores) (buildRxMap wods scores)

/-! ## Profile statistics (`computeStats`, part_003 lines 686-754)

The embedding covers the daily-medal / placement-trend / average part of
`computeStats` (the part every claim is about).  The weekly and monthly
podium counters computed further down the source function are outside the
modelled fragment.  The source reads "today" from the wall clock
(`new Date().toLocaleDateString('en-CA', { timeZone: 'Asia/Dubai' })`);
it is passed here as the explicit `today` parameter.  Date strings
(`YYYY-MM-DD`) are compared with JS `<` and `localeCompare`, both of
which coincide with lexicographic character order on this shape. -/

/-- JS `<` on strings (lexicographic by code unit). -/
def strLt : Str → Str → Bool
  | [], [] => false
  | [], _ :: _ => true
  | _ :: _, [] => false
  | a :: as, b :: bs => if a == b then strLt as bs else decide (a.toNat < b.toNat)

/-- `localeCompare(..) ≤ 0` on `YYYY-MM-DD` strings. -/
def strLe (a b : Str) : Bool := !strLt b a

/-- The `wodMap` of `computeStats`: `new Map(allWods.map(w => [w.wod_date, w]))`,
where a later wod with the same date overwrites an earlier one. -/
def wodMapGet (allWods : List WodRaw) (d : Str) : Option WodRaw :=
  allWods.reverse.find? (fun w => w.wod_date == d)

/-- One point of the placement trend. -/
structure PlacementPoint where
  date : Str
  rank : Nat
deriving DecidableEq, Repr

/-- The modelled fragment of `AllTimeStats`. -/
structure AllTimeStats where
  wodsLogged : Nat
  dailyGold : Nat
  dailySilver : Nat
  dailyBronze : Nat
  dailyGoldDates : List Str
  dailySilverDates : List Str
  dailyBronzeDates : List Str
  placements : List PlacementPoint
  avgPlace : Option Rat
  avgPlaceMonth : Option Rat
  thisMonthCount : Nat
deriving DecidableEq, Repr

/-- The strictly-better test of the rank-beyond-3 loop
(part_003 lines 725-731). -/
def beatsB (type : WorkoutType) (s my : ScoreRaw) : Bool :=
  if type == WorkoutType.TIME then timeLtB s.time_seconds my.time_seconds
  else decide (amrapKey my < amrapKey s)

/-- The rank-beyond-3 computation (part_003 lines 718-735): start at 4,
add one for every other-athlete row that beats the athlete's row, and
clamp at 10. -/
def outsideRank (type : WorkoutType) (uid : Str) (my : ScoreRaw)
    (dayScores : List ScoreRaw) : Nat :=
  min
    (4 +
      (dayScores.filter
        (fun s => !(s.athlete_id == some uid) && beatsB type s my)).length)
    10

/-- The per-date accumulator of the daily-medal loop. -/
structure StatsAcc where
  dailyGold : Nat
  dailySilver : Nat
  dailyBronze : Nat
  dailyGoldDates : List Str
  dailySilverDates : List Str
  dailyBronzeDates : List Str
  placements : List PlacementPoint
deriving DecidableEq, Repr

def StatsAcc.init : StatsAcc := ⟨0, 0, 0, [], [], [], []⟩

/-- One iteration of the daily loop of `computeStats`
(part_003 lines 708-737). -/
def statsStep (uid : Str) (allScores : List ScoreRaw) (allWods : List WodRaw)
    (acc : StatsAcc) (date : Str) : StatsAcc :=
  match wodMapGet allWods date with
  | none => acc
  | some wod =>
    let type := getEffectiveType wod
    if type == WorkoutType.NO_SCORE || type == WorkoutType.UNKNOWN then acc
    else
      let dayScores := allScores.filter (fun s => s.wod_date == date)
      let bands := rankForDate dayScores type
      if ((bands.getD 0 []).contains (some uid)) then
        { acc with
          dailyGold := acc.dailyGold + 1
          dailyGoldDates := acc.dailyGoldDates ++ [date]
          placements := acc.placements ++ [⟨date, 1⟩] }
      else if ((bands.getD 1 []).contains (some uid)) then
        { acc with
          dailySilver := acc.dailySilver + 1
          dailySilverDates := acc.dailySilverDates ++ [date]
          placements := acc.placements ++ [⟨date, 2⟩] }
      else if ((bands.getD 2 []).contains (some uid)) then
        { acc with
          dailyBronze := acc.dailyBronze + 1
          dailyBronzeDates := acc.dailyBronzeDates ++ [date]
          placements := acc.placements ++ [⟨date, 3⟩] }
      else
        match dayScores.find? (fun s => s.athlete_id == some uid) with
        | none => acc
        | some myScoreRow =>
          { acc with
            placements :=
              acc.placements ++ [⟨date, outsideRank type uid myScoreRow dayScores⟩] }

/-- Stable sort of placements by date (`placements.sort` with
`localeCompare`, part_003 line 740). -/
def insertPl (a : PlacementPoint) : List PlacementPoint → List PlacementPoint
  | [] => [a]
  | b :: rest => if strLe a.date b.date then a :: b :: rest else b :: insertPl a rest

def sortPlacements : List PlacementPoint → List PlacementPoint
  | [] => []
  | a :: rest => insertPl a (sortPlacements rest)

/-- Arithmetic mean of the recorded ranks (`null` on an empty list). -/
def avgOf (ps : List PlacementPoint) : Option Rat :=
  if ps.length > 0 then
    some ((ps.foldl (fun sum p => sum + (p.rank : Rat)) 0) / (ps.length : Rat))
  else none

/-- The daily-medal / placement part of `computeStats`
(part_003 lines 686-754). -/
def computeStats (uid : Str) (myDates : List Str) (allScores : List ScoreRaw)
    (allWods : List WodRaw) (today : Str) : AllTimeStats :=
  let currentMonthStr := today.take 7
  let completedDates := myDates.filter (fun d => strLt d today)
  let acc := completedDates.foldl (statsStep uid allScores allWods) StatsAcc.init
  let placements := sortPlacements acc.placements
  let monthPlacements := placements.filter (fun p => currentMonthStr.isPrefixOf p.date)
  { wodsLogged := myDates.length
    dailyGold := acc.dailyGold
    dailySilver := acc.dailySilver
    dailyBronze := acc.dailyBronze
    dailyGoldDates := acc.dailyGoldDates
    dailySilverDates := acc.dailySilverDates
    dailyBronzeDates := acc.dailyBronzeDates
    placements := placements
    avgPlace := avgOf placements
    avgPlaceMonth := avgOf monthPlacements
    thisMonthCount := (myDates.filter (fun d => currentMonthStr.isPrefixOf d)).length }

/-! ## Attendance streak (`computeStreak` in src/app/page.tsx lines 146-167,
identical to `calcStreak` in part_003 lines 986-998)

Calendar dates are modelled as integer day numbers (days since the Unix
epoch); the string date arithmetic of the source (`toLocaleDateString`
round trips through `Date`) is the standard bijection between the two,
and `getDay` of day number `n` is `(n + 4) mod 7` (day 0 was a Thursday;
0 = Sunday, 6 = Saturday). -/

/-- `getDay` of a day number. -/
def dayOfWeek (d : Int) : Int := (d + 4).emod 7

/-- The walk of `computeStreak`: one loop iteration per calendar day,
at most 365 iterations. -/
def streakGo (attended : List Int) (today : Int) : Nat → Int → Nat → Nat
  | 0, _, streak => streak
  | fuel + 1, d, streak =>
    let dow := dayOfWeek d
    if dow == 0 || dow == 6 then streakGo attended today fuel (d - 1) streak
    else if d ∈ attended then streakGo attended today fuel (d - 1) (streak + 1)
    else if d == today then streakGo attended today fuel (d - 1) streak
    else streak

/-- `computeStreak(attendedSet, today)`. -/
def computeStreak (attended : List Int) (today : Int) : Nat :=
  streakGo attended today 365 today 0

/-! ## Time parsing and formatting (`src/lib/wodType.ts` lines 83-98) -/

/-- Decimal digit characters of a natural number (the JS `${m}` template
on a non-negative integer), via a fuel-bounded base-10 expansion. -/
def natToCharsAux : Nat → Nat → Str
  | 0, _ => []
  | fuel + 1, n =>
    if n < 10 then [Nat.digitChar n]
    else natToCharsAux fuel (n / 10) ++ [Nat.digitChar (n % 10)]

def natToChars (n : Nat) : Str := natToCharsAux (n + 1) n

/-- `String(s).padStart(2, '0')`. -/
def pad2 (s : Str) : Str :=
  if s.length ≥ 2 then s else if s.length == 1 then '0' :: s else ['0', '0']

/-- `formatSeconds` (src/lib/wodType.ts lines 94-98). -/
def formatSeconds (totalSeconds : Nat) : Str :=
  natToChars (totalSeconds / 60) ++ ':' :: pad2 (natToChars (totalSeconds % 60))

/-- Numeric value of a digit character. -/
def digitVal (c : Char) : Nat := c.toNat - '0'.toNat

/-- `parseTimeInput` (src/lib/wodType.ts lines 84-91): trim, match the
anchored regex with one or two minute digits, a colon and exactly two
second digits, reject 60 or more seconds. -/
def parseTimeInput (raw : Str) : Option Nat :=
  let t := trimChars raw
  match t with
  | [a, ':', c, d] =>
    if isDigitCh a && isDigitCh c && isDigitCh d then
      let secs := 10 * digitVal c + digitVal d
      if secs ≥ 60 then none else some (digitVal a * 60 + secs)
    else none
  | [a, b, ':', c, d] =>
    if isDigitCh a && isDigitCh b && isDigitCh c && isDigitCh d then
      let secs := 10 * digitVal c + digitVal d
      if secs ≥ 60 then none
      else some ((10 * digitVal a + digitVal b) * 60 + secs)
    else none
  | _ => none

/-! ## Derived definitions used by theorem statements -/

/-- Number of records in `scores` whose TIME comparator value strictly
beats that of `s` (`none` plays `Infinity`). -/
def timeBeats (scores : List ScoreRaw) (s : ScoreRaw) : Nat :=
  (scores.filter (fun x => timeLtB x.time_seconds s.time_seconds)).length

/-- The accumulator entry produced by awarding `p` points to a fresh
athlete: gold `⟨1,0,0,3⟩`, silver `⟨0,1,0,2⟩`, bronze `⟨0,0,1,1⟩`. -/
def medalEntry (p : Nat) : Entry := applyMedal p Entry.zero

/-! ## Concrete fixtures used by the claim theorems and witnesses -/

/-- Scenario A (spec §8): TIME day `2024-03-04`. -/
def exWodTime : WodRaw := ⟨("2024-03-04").toList, ("for time").toList, none⟩

def exAlice : ScoreRaw :=
  ⟨("2024-03-04").toList, some (("alice").toList), some 600, none, none, none, false⟩

def exBob : ScoreRaw :=
  ⟨("2024-03-04").toList, some (("bob").toList), some 600, none, none, none, false⟩

def exCarol : ScoreRaw :=
  ⟨("2024-03-04").toList, some (("carol").toList), some 650, none, none, none, false⟩

/-- A guest-only row: `athlete_id` null, no team, best time of the day. -/
def exGuest : ScoreRaw :=
  ⟨("2024-03-04").toList, none, some 100, none, none, none, false⟩

/-- Two rows of the same 2-person team with the best time of the day. -/
def exAnn : ScoreRaw :=
  ⟨("2024-03-04").toList, some (("ann").toList), some 500, none, none,
    some (("team1").toList), false⟩

def exBen : ScoreRaw :=
  ⟨("2024-03-04").toList, some (("ben").toList), some 500, none, none,
    some (("team1").toList), false⟩

/-- Four distinct TIME rows; athlete `d` places fourth. -/
def exA100 : ScoreRaw :=
  ⟨("2024-03-04").toList, some (("a").toList), some 100, none, none, none, false⟩

def exB200 : ScoreRaw :=
  ⟨("2024-03-04").toList, some (("b").toList), some 200, none, none, none, false⟩

def exC300 : ScoreRaw :=
  ⟨("2024-03-04").toList, some (("c").toList), some 300, none, none, none, false⟩

def exD400 : ScoreRaw :=
  ⟨("2024-03-04").toList, some (("d").toList), some 400, none, none, none, false⟩

/-- AMRAP rows `{rounds 5, reps 12}`, `{rounds 5, reps 20}`, `{rounds 6, reps 0}`. -/
def exAm512 : ScoreRaw :=
  ⟨("d1").toList, some (("x").toList), none, some 5, some 12, none, false⟩

def exAm520 : ScoreRaw :=
  ⟨("d1").toList, some (("y").toList), none, some 5, some 20, none, false⟩

def exAm60 : ScoreRaw :=
  ⟨("d1").toList, some (("z").toList), none, some 6, some 0, none, false⟩

/-- An Rx row of Alice on the Scenario A day. -/
def exAliceRx : ScoreRaw :=
  ⟨("2024-03-04").toList, some (("alice").toList), some 600, none, none, none, true⟩

/-! # Theorems -/

/-! ## C5: classifier precedence -/

/-- **C5.** For every description text with no override set, the
classifier checks cue phrases case-insensitively (on the lowercased
trimmed text) in the fixed precedence order NO_SCORE, then CALORIES,
then AMRAP, then TIME, with the first match winning (and TIME also the
default); in particular every text containing both a NO_SCORE cue and an
AMRAP cue classifies as NO_SCORE. -/
theorem claim_C5 (raw : Option Str)
    (hne : (trimChars (raw.getD [])).isEmpty = false) :
    (hasNoScoreCue ((trimChars (raw.getD [])).map Char.toLower) = true →
      detectWorkoutTypeFromWodText raw = WorkoutType.NO_SCORE) ∧
    (hasNoScoreCue ((trimChars (raw.getD [])).map Char.toLower) = false →
      hasCaloriesCue ((trimChars (raw.getD [])).map Char.toLower) = true →
      detectWorkoutTypeFromWodText raw = WorkoutType.CALORIES) ∧
    (hasNoScoreCue ((trimChars (raw.getD [])).map Char.toLower) = false →
      hasCaloriesCue ((trimChars (raw.getD [])).map Char.toLower) = false →
      hasAmrapCue ((trimChars (raw.getD [])).map Char.toLower) = true →
      detectWorkoutTypeFromWodText raw = WorkoutType.AMRAP) ∧
    (hasNoScoreCue ((trimChars (raw.getD [])).map Char.toLower) = false →
      hasCaloriesCue ((trimChars (raw.getD [])).map Char.toLower) = false →
      hasAmrapCue ((trimChars (raw.getD [])).map Char.toLower) = false →
      detectWorkoutTypeFromWodText raw = WorkoutType.TIME) ∧
    (hasNoScoreCue ((trimChars (raw.getD [])).map Char.toLower) = true →
      hasAmrapCue ((trimChars (raw.getD [])).map Char.toLower) = true →
      detectWorkoutTypeFromWodText raw = WorkoutType.NO_SCORE) := by
  refine ⟨fun h1 => ?_, fun h1 h2 => ?_, fun h1 h2 h3 => ?_, fun h1 h2 h3 => ?_,
    fun h1 _ => ?_⟩ <;>
    simp [detectWorkoutTypeFromWodText, hne, h1]
  · simp [h2]
  · simp [h2, h3]
  · simp [h2, h3]

/-- Witness for C5 at the mixed-cue text "EMOM 10 then AMRAP 12". -/
theorem claim_C5_witness :
    detectWorkoutTypeFromWodText (some (("EMOM 10 then AMRAP 12").toList)) =
      WorkoutType.NO_SCORE :=
  (claim_C5 (some (("EMOM 10 then AMRAP 12").toList)) (by decide)).2.2.2.2
    (by decide) (by decide)

/-! ## C8: attendance streak -/

/-- Weekend days never affect the walk: removing or adding a
weekend-day date to the attended set changes nothing. -/
theorem streakGo_weekend_irrel (attended : List Int) (today w : Int)
    (hw : dayOfWeek w = 0 ∨ dayOfWeek w = 6) :
    ∀ fuel d s, streakGo (w :: attended) today fuel d s = streakGo attended today fuel d s := by
  intro fuel
  induction fuel with
  | zero => intro d s; rfl
  | succ f ih =>
    intro d s
    by_cases hd : (dayOfWeek d == 0 || dayOfWeek d == 6) = true
    · simp only [streakGo, hd, if_true]
      exact ih (d - 1) s
    · have hdw : d ≠ w := by
        intro he
        subst he
        rcases hw with h | h <;> simp [h] at hd
      have hmem : (d ∈ w :: attended) ↔ (d ∈ attended) := by
        simp [List.mem_cons, hdw]
      by_cases hm : d ∈ attended
      · simp only [streakGo, hd, if_false, Bool.false_eq_true, hm, hmem.mpr hm, if_true]
        exact ih (d - 1) (s + 1)
      · have hm2 : d ∉ w :: attended := fun hx => hm (hmem.mp hx)
        by_cases ht : (d == today) = true
        · simp only [streakGo, hd, Bool.false_eq_true, if_false, hm, hm2, ht, if_true]
          exact ih (d - 1) s
        · simp only [streakGo, hd, Bool.false_eq_true, if_false, hm, hm2, ht]

/-- The walk inspects only the dates it visits: two attended sets that
agree on the `fuel` days ending at `d` produce the same result. -/
theorem streakGo_congr (att att2 : List Int) (today : Int) :
    ∀ (fuel : Nat) (d : Int) (s : Nat),
      (∀ x : Int, d - (fuel : Int) < x → x ≤ d → (x ∈ att ↔ x ∈ att2)) →
      streakGo att today fuel d s = streakGo att2 today fuel d s := by
  intro fuel
  induction fuel with
  | zero => intro d s _; rfl
  | succ f ih =>
    intro d s hag
    have hd : (d ∈ att) ↔ (d ∈ att2) := hag d (by omega) (by omega)
    have hrec : ∀ s2, streakGo att today f (d - 1) s2 = streakGo att2 today f (d - 1) s2 :=
      fun s2 => ih (d - 1) s2 (fun x h1 h2 => hag x (by omega) (by omega))
    by_cases h1 : (dayOfWeek d == 0 || dayOfWeek d == 6) = true
    · simp only [streakGo, h1, if_true]
      exact hrec s
    · by_cases h2 : d ∈ att
      · simp only [streakGo, h1, Bool.false_eq_true, if_false, h2, hd.mp h2, if_true]
        exact hrec (s + 1)
      · have h2' : d ∉ att2 := fun hx => h2 (hd.mpr hx)
        by_cases h3 : (d == today) = true
        · simp only [streakGo, h1, Bool.false_eq_true, if_false, h2, h2', h3, if_true]
          exact hrec s
        · simp only [streakGo, h1, Bool.false_eq_true, if_false, h2, h2', h3]

/-- **C8.** The streak walks backward from today one calendar day per
loop iteration: weekend days never break or extend the streak (first
conjunct); only the 365 most recent calendar days are ever consulted
(second conjunct: sets agreeing on that window give equal streaks); an
attended set with every weekday of the last 10 business days but missing
the 11th yields exactly 10 (third/fourth conjuncts: day numbers with
`getDay = (n+4) mod 7`, today = 18 a Monday, the 11th business day back
= 4 absent); and a missing "today" does not terminate the walk (fifth/
sixth conjuncts: today 18 absent, last Friday 15 attended, streak 1, not
0). -/
theorem claim_C8 :
    (∀ (attended : List Int) (today w : Int), dayOfWeek w = 0 ∨ dayOfWeek w = 6 →
      computeStreak (w :: attended) today = computeStreak attended today) ∧
    (∀ (att att2 : List Int) (today : Int),
      (∀ x : Int, today - 364 ≤ x → x ≤ today → (x ∈ att ↔ x ∈ att2)) →
      computeStreak att today = computeStreak att2 today) ∧
    computeStreak [18, 15, 14, 13, 12, 11, 8, 7, 6, 5] 18 = 10 ∧
    ¬((4 : Int) ∈ ([18, 15, 14, 13, 12, 11, 8, 7, 6, 5] : List Int)) ∧
    computeStreak [15] 18 = 1 ∧
    ¬((18 : Int) ∈ ([15] : List Int)) := by
  refine ⟨?_, ?_, by decide, by decide, by decide, by decide⟩
  · intro attended today w hw
    exact streakGo_weekend_irrel attended today w hw 365 today 0
  · intro att att2 today hag
    exact streakGo_congr att att2 today 365 today 0
      (fun x h1 h2 => hag x (by omega) h2)

/-- Witness for C8: the weekend conjunct applied at Sunday day 17, and
the window conjunct applied to a set containing the out-of-window day
-400. -/
theorem claim_C8_witness :
    computeStreak [17, 15] 18 = computeStreak [15] 18 ∧
    computeStreak [15, -400] 18 = computeStreak [15] 18 := by
  constructor
  · exact claim_C8.1 [15] 18 17 (by decide)
  · refine claim_C8.2.1 [15, -400] [15] 18 ?_
    intro x h1 h2
    simp only [List.mem_cons, List.not_mem_nil, or_false]
    omega

/-! ## C10: time format / parse round trip -/

theorem natToCharsAux_small (fuel n : Nat) (hf : 1 ≤ fuel) (hn : n < 10) :
    natToCharsAux fuel n = [Nat.digitChar n] := by
  cases fuel with
  | zero => omega
  | succ f => simp [natToCharsAux, hn]

theorem natToChars_small (n : Nat) (hn : n < 10) :
    natToChars n = [Nat.digitChar n] :=
  natToCharsAux_small _ _ (by omega) hn

theorem natToChars_two (n : Nat) (h1 : 10 ≤ n) (h2 : n ≤ 99) :
    natToChars n = [Nat.digitChar (n / 10), Nat.digitChar (n % 10)] := by
  have hx : ¬n < 10 := by omega
  unfold natToChars
  rw [natToCharsAux]
  simp only [hx, if_false]
  rw [natToCharsAux_small n (n / 10) (by omega) (by omega)]
  rfl

theorem natToCharsAux_len1 :
    ∀ fuel n, n < fuel → 1 ≤ (natToCharsAux fuel n).length := by
  intro fuel
  induction fuel with
  | zero => intro n h; omega
  | succ f ih =>
    intro n _
    rw [natToCharsAux]
    by_cases h10 : n < 10
    · simp [h10]
    · simp [h10]

theorem natToCharsAux_len2 :
    ∀ fuel n, n < fuel → 10 ≤ n → 2 ≤ (natToCharsAux fuel n).length := by
  intro fuel
  induction fuel with
  | zero => intro n h; omega
  | succ f ih =>
    intro n hlt hge
    have h10 : ¬n < 10 := by omega
    rw [natToCharsAux]
    simp only [h10, if_false, List.length_append, List.length_cons, List.length_nil]
    have := natToCharsAux_len1 f (n / 10) (by omega)
    omega

theorem natToCharsAux_len3 :
    ∀ fuel n, n < fuel → 100 ≤ n → 3 ≤ (natToCharsAux fuel n).length := by
  intro fuel
  induction fuel with
  | zero => intro n h; omega
  | succ f ih =>
    intro n hlt hge
    have h10 : ¬n < 10 := by omega
    rw [natToCharsAux]
    simp only [h10, if_false, List.length_append, List.length_cons, List.length_nil]
    have := natToCharsAux_len2 f (n / 10) (by omega) (by omega)
    omega

theorem natToCharsAux_chars :
    ∀ fuel n c, c ∈ natToCharsAux fuel n → ∃ k, k < 10 ∧ c = Nat.digitChar k := by
  intro fuel
  induction fuel with
  | zero => intro n c h; simp [natToCharsAux] at h
  | succ f ih =>
    intro n c h
    rw [natToCharsAux] at h
    by_cases h10 : n < 10
    · simp only [h10, if_true, List.mem_singleton] at h
      exact ⟨n, h10, h⟩
    · simp only [h10, if_false, List.mem_append, List.mem_singleton] at h
      rcases h with h | h
      · exact ih (n / 10) c h
      · exact ⟨n % 10, by omega, h⟩

theorem digitChar_isDigit (n : Nat) (h : n < 10) :
    isDigitCh (Nat.digitChar n) = true := by
  interval_cases n <;> decide

theorem digitChar_val (n : Nat) (h : n < 10) : digitVal (Nat.digitChar n) = n := by
  interval_cases n <;> decide

theorem digitChar_not_space (n : Nat) (h : n < 10) :
    isSpaceCh (Nat.digitChar n) = false := by
  interval_cases n <;> decide

/-- `dropWhile` is the identity when no element satisfies the predicate
(only the head is ever inspected). -/
theorem dropWhile_of_none (p : Char → Bool) (l : Str)
    (h : ∀ c ∈ l, p c = false) : l.dropWhile p = l := by
  cases l with
  | nil => rfl
  | cons a l2 => simp [List.dropWhile, h a (List.mem_cons_self a l2)]

theorem trim_of_no_space (s : Str) (h : ∀ c ∈ s, isSpaceCh c = false) :
    trimChars s = s := by
  unfold trimChars
  rw [dropWhile_of_none _ _ h]
  rw [dropWhile_of_none _ _ (fun c hc => h c (List.mem_reverse.mp hc))]
  exact List.reverse_reverse s

/-- Every character `formatSeconds` emits is a digit, a `'0'` pad or the
colon, none of which is whitespace. -/
theorem formatSeconds_no_space (t : Nat) :
    ∀ c ∈ formatSeconds t, isSpaceCh c = false := by
  intro c hc
  unfold formatSeconds at hc
  rw [List.mem_append, List.mem_cons] at hc
  rcases hc with hc | rfl | hc
  · obtain ⟨k, hk, rfl⟩ := natToCharsAux_chars _ _ c hc
    exact digitChar_not_space k hk
  · decide
  · have hp : c ∈ natToChars (t % 60) ∨ c = '0' := by
      unfold pad2 at hc
      split at hc
      · exact Or.inl hc
      · split at hc
        · rw [List.mem_cons] at hc
          rcases hc with rfl | hc
          · exact Or.inr rfl
          · exact Or.inl hc
        · rw [List.mem_cons, List.mem_singleton] at hc
          rcases hc with rfl | rfl <;> exact Or.inr rfl
    rcases hp with hp | rfl
    · obtain ⟨k, hk, rfl⟩ := natToCharsAux_chars _ _ c hp
      exact digitChar_not_space k hk
    · decide

theorem pad2_len (s : Str) : 2 ≤ (pad2 s).length := by
  unfold pad2
  split
  · omega
  · split <;> simp_all

/-- Any trim-stable string of six or more characters fails the parser's
anchored regex. -/
theorem parse_none_of_long (s : Str) (ht : trimChars s = s) (hl : 6 ≤ s.length) :
    parseTimeInput s = none := by
  rcases s with _ | ⟨a, _ | ⟨b, _ | ⟨c, _ | ⟨d, _ | ⟨e, _ | ⟨f, rest⟩⟩⟩⟩⟩⟩ <;>
    simp only [List.length_nil, List.length_cons] at hl <;> try omega
  simp [parseTimeInput, ht]

/-- **C10.** For every integer `0 ≤ totalSeconds ≤ 5999`,
`parseTimeInput (formatSeconds totalSeconds)` returns exactly
`totalSeconds`; for every `totalSeconds ≥ 6000` the round trip instead
returns `none`, because the parser accepts at most two minute digits. -/
theorem claim_C10 :
    (∀ t : Nat, t ≤ 5999 → parseTimeInput (formatSeconds t) = some t) ∧
    (∀ t : Nat, 6000 ≤ t → parseTimeInput (formatSeconds t) = none) := by
  constructor
  · intro t ht
    have hr : t % 60 < 60 := Nat.mod_lt t (by omega)
    have hq : t / 60 ≤ 99 := by omega
    have htrim := trim_of_no_space (formatSeconds t) (formatSeconds_no_space t)
    by_cases hq10 : t / 60 < 10
    · by_cases hr10 : t % 60 < 10
      · have hfmt : formatSeconds t =
            [Nat.digitChar (t / 60), ':', '0', Nat.digitChar (t % 60)] := by
          unfold formatSeconds
          rw [natToChars_small _ hq10, natToChars_small _ hr10]
          rfl
        rw [hfmt] at htrim
        simp only [parseTimeInput, hfmt, htrim, digitChar_isDigit _ hq10,
          digitChar_isDigit _ hr10, digitChar_val _ hq10, digitChar_val _ hr10,
          show isDigitCh '0' = true from rfl, show digitVal '0' = 0 from rfl]
        norm_num
        omega
      · have hfmt : formatSeconds t =
            [Nat.digitChar (t / 60), ':', Nat.digitChar (t % 60 / 10),
              Nat.digitChar (t % 60 % 10)] := by
          unfold formatSeconds
          rw [natToChars_small _ hq10, natToChars_two (t % 60) (by omega) (by omega)]
          rfl
        rw [hfmt] at htrim
        simp only [parseTimeInput, hfmt, htrim, digitChar_isDigit _ hq10,
          digitChar_isDigit (t % 60 / 10) (by omega),
          digitChar_isDigit (t % 60 % 10) (by omega),
          digitChar_val _ hq10, digitChar_val (t % 60 / 10) (by omega),
          digitChar_val (t % 60 % 10) (by omega)]
        norm_num
        constructor
        · omega
        · omega
    · have hq2 : 10 ≤ t / 60 := by omega
      have hchars : natToChars (t / 60) =
          [Nat.digitChar (t / 60 / 10), Nat.digitChar (t / 60 % 10)] :=
        natToChars_two _ hq2 hq
      by_cases hr10 : t % 60 < 10
      · have hfmt : formatSeconds t =
            [Nat.digitChar (t / 60 / 10), Nat.digitChar (t / 60 % 10), ':', '0',
              Nat.digitChar (t % 60)] := by
          unfold formatSeconds
          rw [hchars, natToChars_small _ hr10]
          rfl
        rw [hfmt] at htrim
        simp only [parseTimeInput, hfmt, htrim,
          digitChar_isDigit (t / 60 / 10) (by omega),
          digitChar_isDigit (t / 60 % 10) (by omega),
          digitChar_isDigit _ hr10, digitChar_val (t / 60 / 10) (by omega),
          digitChar_val (t / 60 % 10) (by omega), digitChar_val _ hr10,
          show isDigitCh '0' = true from rfl, show digitVal '0' = 0 from rfl]
        norm_num
        omega
      · have hfmt : formatSeconds t =
            [Nat.digitChar (t / 60 / 10), Nat.digitChar (t / 60 % 10), ':',
              Nat.digitChar (t % 60 / 10), Nat.digitChar (t % 60 % 10)] := by
          unfold formatSeconds
          rw [hchars, natToChars_two (t % 60) (by omega) (by omega)]
          rfl
        rw [hfmt] at htrim
        simp only [parseTimeInput, hfmt, htrim,
          digitChar_isDigit (t / 60 / 10) (by omega),
          digitChar_isDigit (t / 60 % 10) (by omega),
          digitChar_isDigit (t % 60 / 10) (by omega),
          digitChar_isDigit (t % 60 % 10) (by omega),
          digitChar_val (t / 60 / 10) (by omega),
          digitChar_val (t / 60 % 10) (by omega),
          digitChar_val (t % 60 / 10) (by omega),
          digitChar_val (t % 60 % 10) (by omega)]
        norm_num
        constructor
        · omega
        · omega
  · intro t ht
    have hq : 100 ≤ t / 60 := by omega
    have hlen : 6 ≤ (formatSeconds t).length := by
      unfold formatSeconds
      simp only [List.length_append, List.length_cons]
      have h3 := natToCharsAux_len3 (t / 60 + 1) (t / 60) (by omega) hq
      have h2 := pad2_len (natToChars (t % 60))
      unfold natToChars at h2 ⊢
      omega
    exact parse_none_of_long _
      (trim_of_no_space _ (formatSeconds_no_space t)) hlen

/-- Witness for C10 at 754 seconds ("12:34") and at the 6000-second
boundary ("100:00"). -/
theorem claim_C10_witness :
    parseTimeInput (formatSeconds 754) = some 754 ∧
    parseTimeInput (formatSeconds 6000) = none :=
  ⟨claim_C10.1 754 (by omega), claim_C10.2 6000 (by omega)⟩

/-! ## Association-map lemmas (shared) -/

theorem pmapGet_pmapSet_self (m : PMap) (id : Option Str) (e : Entry) :
    pmapGet (pmapSet m id e) id = some e := by
  induction m with
  | nil => simp [pmapSet, pmapGet, List.find?]
  | cons p rest ih =>
    obtain ⟨k, v⟩ := p
    by_cases h : (k == id) = true
    · simp [pmapSet, h, pmapGet, List.find?]
    · simp only [pmapSet, h, Bool.false_eq_true, if_false]
      simpa [pmapGet, List.find?, h] using ih

theorem pmapGet_pmapSet_ne (m : PMap) (id id2 : Option Str) (e : Entry)
    (h : id ≠ id2) : pmapGet (pmapSet m id e) id2 = pmapGet m id2 := by
  induction m with
  | nil => simp [pmapSet, pmapGet, List.find?, show (id == id2) = false by simpa using h]
  | cons p rest ih =>
    obtain ⟨k, v⟩ := p
    by_cases hk : (k == id) = true
    · have hk2 : (k == id2) = false := by
        have : k = id := by simpa using hk
        subst this
        simpa using h
      simp [pmapSet, hk, pmapGet, List.find?, hk2]
    · simp only [pmapSet, hk, Bool.false_eq_true, if_false]
      by_cases hk2 : (k == id2) = true
      · simp [pmapGet, List.find?, hk2]
      · simpa [pmapGet, List.find?, hk2] using ih

theorem pmapGet_pmapUpd_self (m : PMap) (id : Option Str) (f : Entry → Entry) :
    pmapGet (pmapUpd m id f) id = some (f ((pmapGet m id).getD Entry.zero)) :=
  pmapGet_pmapSet_self m id _

theorem pmapGet_pmapUpd_ne (m : PMap) (id id2 : Option Str) (f : Entry → Entry)
    (h : id ≠ id2) : pmapGet (pmapUpd m id f) id2 = pmapGet m id2 :=
  pmapGet_pmapSet_ne m id id2 _ h

/-- The Rx bonus phase never touches the `null` (guest) key. -/
theorem addRxBonus_get_none :
    ∀ (rx : RxMap) (m : PMap), pmapGet (addRxBonus m rx) none = pmapGet m none := by
  intro rx
  induction rx with
  | nil => intro m; rfl
  | cons p rest ih =>
    intro m
    have hstep : addRxBonus m (p :: rest) =
        addRxBonus (pmapUpd m (some p.1)
          (fun e => { e with total := e.total + (p.2.length : Rat) * (1 / 2) })) rest := rfl
    rw [hstep, ih]
    exact pmapGet_pmapUpd_ne _ _ _ _ (by simp)

/-! ## C2: placement rank beyond the medals (code bug) -/

/-- **C2** (evaluation of the code at the failing input).  Athlete `d`
places fourth on a TIME day behind three distinct faster athletes; the
claim (and the spec, and the code's own comment) says the recorded
placement-trend rank is `1 + 3 = 4`, but the code starts its counter at
4 *and* adds one per beating record, recording `min (4 + 3) 10 = 7`. -/
theorem claim_C2_code_eval :
    (computeStats (("d").toList) [("2024-03-04").toList]
        [exA100, exB200, exC300, exD400] [exWodTime] (("2024-04-01").toList)).placements =
      [⟨("2024-03-04").toList, 7⟩] ∧ (7 : Nat) ≠ 1 + 3 := by
  constructor
  · decide
  · decide

/-! ## C9: profile silver vs aggregator bronze on a tied TIME day -/

/-- **C9.** On the TIME day with Alice = Bob = 600 s and Carol = 650 s,
`computeStats` classifies Carol's day by membership of the second
returned band and records a *silver* daily medal (rank 2), while
`computeMonthlyPoints` awards the second band, whose starting position
is 3, a *bronze* (1 point): the two surfaces assign different medals to
the same athlete for the same date. -/
theorem claim_C9 :
    (computeStats (("carol").toList) [("2024-03-04").toList] [exAlice, exBob, exCarol]
        [exWodTime] (("2024-04-01").toList)).dailySilver = 1 ∧
    (computeStats (("carol").toList) [("2024-03-04").toList] [exAlice, exBob, exCarol]
        [exWodTime] (("2024-04-01").toList)).dailyBronze = 0 ∧
    (computeStats (("carol").toList) [("2024-03-04").toList] [exAlice, exBob, exCarol]
        [exWodTime] (("2024-04-01").toList)).placements = [⟨("2024-03-04").toList, 2⟩] ∧
    pmapGet (computeMonthlyPoints [exWodTime] [exAlice, exBob, exCarol])
      (some (("carol").toList)) = some ⟨0, 0, 1, 1⟩ := by
  refine ⟨by decide, by decide, by decide, ?_⟩
  norm_num +decide [computeMonthlyPoints, medalPhase, buildRxMap, addRxBonus, rankForDate,
    bandLoop, bandGo, rawBand, teamRepsOf, individualsOf, dedupByKey, sortByLe, insertLe,
    scoreLe, timeLeB, tiedB, expandEntry, dedupIds, dedupAcc, awardBands, awardBand,
    pointsForRank, applyMedal, pmapUpd, pmapGet, pmapSet, truthy, getEffectiveType,
    rxQualifies, Entry.zero, exAlice, exBob, exCarol, exWodTime]

/-! ## C3: guest records and aggregation -/

/-- Counterexample to **C3** as stated: a guest-only record (null
`athleteId`, no team) with the best time of the day is ranked like any
individual and receives a gold medal and 3 points under the `null` key
of the aggregation output — it is not excluded. -/
theorem claim_C3_counterexample :
    pmapGet (computeMonthlyPoints [exWodTime] [exGuest, exAlice]) none =
      some ⟨1, 0, 0, 3⟩ := by
  norm_num +decide [computeMonthlyPoints, medalPhase, buildRxMap, addRxBonus, rankForDate,
    bandLoop, bandGo, rawBand, teamRepsOf, individualsOf, dedupByKey, sortByLe, insertLe,
    scoreLe, timeLeB, tiedB, expandEntry, dedupIds, dedupAcc, awardBands, awardBand,
    pointsForRank, applyMedal, pmapUpd, pmapGet, pmapSet, truthy, getEffectiveType,
    rxQualifies, Entry.zero, exGuest, exAlice, exWodTime]

/-- **C3 (amended).**  Guest records are excluded only from the Rx
bonus: the bonus phase never changes the `null`-key entry (first
conjunct, for every input window).  They are *not* excluded from ranking
or points aggregation: a guest-only record is ranked as an ordinary
individual under its null athleteId and can contribute a key, a medal
and points to the output (second conjunct). -/
theorem claim_C3_amended :
    (∀ (wods : List WodRaw) (scores : List ScoreRaw),
      pmapGet (computeMonthlyPoints wods scores) none =
        pmapGet (medalPhase wods scores) none) ∧
    pmapGet (computeMonthlyPoints [exWodTime] [exGuest, exAlice]) none =
      some ⟨1, 0, 0, 3⟩ := by
  constructor
  · intro wods scores
    exact addRxBonus_get_none (buildRxMap wods scores) (medalPhase wods scores)
  · norm_num +decide [computeMonthlyPoints, medalPhase, buildRxMap, addRxBonus, rankForDate,
      bandLoop, bandGo, rawBand, teamRepsOf, individualsOf, dedupByKey, sortByLe, insertLe,
      scoreLe, timeLeB, tiedB, expandEntry, dedupIds, dedupAcc, awardBands, awardBand,
      pointsForRank, applyMedal, pmapUpd, pmapGet, pmapSet, truthy, getEffectiveType,
      rxQualifies, Entry.zero, exGuest, exAlice, exWodTime]

/-- Witness for the amended C3: the universal conjunct applied at the
Scenario A window (no guests: the null key is absent from both maps). -/
theorem claim_C3_witness :
    pmapGet (computeMonthlyPoints [exWodTime] [exAlice, exBob, exCarol]) none =
      pmapGet (medalPhase [exWodTime] [exAlice, exBob, exCarol]) none :=
  claim_C3_amended.1 [exWodTime] [exAlice, exBob, exCarol]

/-! ## C4: AMRAP / CALORIES ordering -/

/-- **C4.** For every pair of AMRAP or CALORIES records, `rankForDate`
orders them descending by the composite key `rounds*10000 + reps` (first
conjunct: the record with the strictly larger key gets the first band);
a record with neither rounds nor reps is treated as −1/−1, key −10001
(second conjunct), which is strictly below the key of any record with at
least one non-negative value present (third conjunct), so it sorts last;
in particular `{rounds 6, reps 0}` ranks ahead of `{rounds 5, reps 20}`
which ranks strictly ahead of `{rounds 5, reps 12}` (fourth conjunct). -/
theorem claim_C4 :
    (∀ (a b : ScoreRaw) (ty : WorkoutType),
      ty = WorkoutType.AMRAP ∨ ty = WorkoutType.CALORIES →
      a.team_id = none → b.team_id = none → a.athlete_id ≠ b.athlete_id →
      amrapKey b < amrapKey a →
      rankForDate [a, b] ty = [[a.athlete_id], [b.athlete_id]]) ∧
    (∀ a : ScoreRaw, a.amrap_rounds = none → a.amrap_reps = none →
      amrapKey a = -10001) ∧
    (∀ b : ScoreRaw,
      (∀ r, b.amrap_rounds = some r → 0 ≤ r) →
      (∀ p, b.amrap_reps = some p → 0 ≤ p) →
      (b.amrap_rounds ≠ none ∨ b.amrap_reps ≠ none) →
      -10000 ≤ amrapKey b) ∧
    rankForDate [exAm512, exAm520, exAm60] WorkoutType.AMRAP =
      [[some (("z").toList)], [some (("y").toList)], [some (("x").toList)]] := by
  refine ⟨?_, ?_, ?_, by decide⟩
  · intro a b ty hty hta htb hne hlt
    have htyn : (ty == WorkoutType.NO_SCORE || ty == WorkoutType.UNKNOWN) = false := by
      rcases hty with rfl | rfl <;> decide
    have htyt : (ty == WorkoutType.TIME) = false := by
      rcases hty with rfl | rfl <;> decide
    have h1 : teamRepsOf [a, b] = [] := by
      simp [teamRepsOf, List.filter, hta, htb, truthy, dedupByKey]
    have h2 : individualsOf [a, b] = [a, b] := by
      have hne3 : ¬b.athlete_id = a.athlete_id := fun h => hne h.symm
      simp [individualsOf, List.filter, hta, htb, truthy, dedupByKey, hne3]
    have hle : scoreLe ty a b = true := by
      simp only [scoreLe, htyt, Bool.false_eq_true, if_false]
      simp
      omega
    have hsort : sortByLe (scoreLe ty) [a, b] = [a, b] := by
      simp [sortByLe, insertLe, hle]
    have htied : tiedB ty a b = false := by
      simp only [tiedB, htyt, Bool.false_eq_true, if_false]
      by_contra hcon
      rw [Bool.not_eq_false, Bool.and_eq_true, beq_iff_eq, beq_iff_eq] at hcon
      unfold amrapKey at hlt
      omega
    have hexa : expandEntry [a, b] a = [a.athlete_id] := by
      simp [expandEntry, hta, truthy]
    have hexb : expandEntry [a, b] b = [b.athlete_id] := by
      simp [expandEntry, htb, truthy]
    unfold rankForDate
    rw [htyn]
    simp only [Bool.false_eq_true, if_false, h1, h2, List.nil_append, hsort]
    unfold bandLoop
    simp only [List.length_cons, List.length_nil]
    rw [bandGo]
    simp only [show (1 : Nat) ≤ 3 by omega, if_true]
    rw [rawBand]
    simp only [List.takeWhile_cons, htied, Bool.false_eq_true, if_false,
      List.dropWhile_cons, List.map_cons, List.map_nil, List.flatten, hexa,
      List.append_nil, List.takeWhile_nil, List.dropWhile_nil]
    rw [bandGo]
    simp only [List.length_cons, List.length_nil, show (1 + 1 : Nat) ≤ 3 by omega, if_true]
    rw [rawBand]
    simp only [List.takeWhile_nil, List.map_cons, List.map_nil, List.flatten, hexb,
      List.append_nil, List.dropWhile_nil]
    rw [bandGo]
    simp [dedupIds, dedupAcc]
  · intro a h1 h2
    simp [amrapKey, h1, h2]
  · intro b hr hp hor
    unfold amrapKey
    rcases h1 : b.amrap_rounds with _ | r
    · rcases h2 : b.amrap_reps with _ | p
      · rcases hor with h | h
        · exact absurd h1 h
        · exact absurd h2 h
      · have := hp p h2
        simp only [Option.getD_some, Option.getD_none]
        omega
    · have := hr r h1
      have h3 : -1 ≤ b.amrap_reps.getD (-1) := by
        rcases h2 : b.amrap_reps with _ | p
        · simp
        · have := hp p h2
          simp
          omega
      simp only [Option.getD_some]
      omega

/-- Witness for C4: the universal ordering conjunct applied at the
records `{rounds 6, reps 0}` and `{rounds 5, reps 20}`. -/
theorem claim_C4_witness :
    rankForDate [exAm60, exAm520] WorkoutType.AMRAP =
      [[some (("z").toList)], [some (("y").toList)]] :=
  claim_C4.1 exAm60 exAm520 WorkoutType.AMRAP (Or.inl rfl) rfl rfl
    (by decide) (by decide)

/-! ## Deduplication and award lemmas (shared) -/

theorem mem_dedupAcc :
    ∀ (l seen : List (Option Str)) (x : Option Str),
      x ∈ dedupAcc seen l ↔ x ∈ l ∧ x ∉ seen := by
  intro l
  induction l with
  | nil => intro seen x; simp [dedupAcc]
  | cons a rest ih =>
    intro seen x
    by_cases ha : a ∈ seen
    · rw [dedupAcc]
      simp only [ha, if_true]
      rw [ih]
      constructor
      · rintro ⟨h1, h2⟩
        exact ⟨List.mem_cons_of_mem a h1, h2⟩
      · rintro ⟨h1, h2⟩
        rcases List.mem_cons.mp h1 with rfl | h1
        · exact absurd ha h2
        · exact ⟨h1, h2⟩
    · rw [dedupAcc]
      simp only [ha, if_false]
      constructor
      · intro h
        rcases List.mem_cons.mp h with rfl | h
        · exact ⟨List.mem_cons_self _ _, ha⟩
        · obtain ⟨h1, h2⟩ := (ih _ x).mp h
          refine ⟨List.mem_cons_of_mem a h1, fun hx => h2 (List.mem_cons_of_mem a hx)⟩
      · rintro ⟨h1, h2⟩
        rcases List.mem_cons.mp h1 with rfl | h1
        · exact List.mem_cons_self _ _
        · by_cases hxa : x = a
          · subst hxa
            exact List.mem_cons_self _ _
          · refine List.mem_cons_of_mem _ ((ih _ x).mpr ⟨h1, fun hx => ?_⟩)
            rcases List.mem_cons.mp hx with h | h
            · exact hxa h
            · exact h2 h

theorem dedupAcc_nodup :
    ∀ (l seen : List (Option Str)), (dedupAcc seen l).Nodup := by
  intro l
  induction l with
  | nil => intro seen; simp [dedupAcc]
  | cons a rest ih =>
    intro seen
    by_cases ha : a ∈ seen
    · rw [dedupAcc]
      simp only [ha, if_true]
      exact ih seen
    · rw [dedupAcc]
      simp only [ha, if_false]
      refine List.nodup_cons.mpr ⟨fun hx => ?_, ih _⟩
      exact ((mem_dedupAcc rest (a :: seen) a).mp hx).2 (List.mem_cons_self _ _)

theorem mem_dedupIds (l : List (Option Str)) (x : Option Str) :
    x ∈ dedupIds l ↔ x ∈ l := by
  rw [dedupIds, mem_dedupAcc]
  simp

theorem dedupIds_nodup (l : List (Option Str)) : (dedupIds l).Nodup :=
  dedupAcc_nodup l []

theorem awardBand_get_not_mem (p : Nat) :
    ∀ (band : List (Option Str)) (m : PMap) (id : Option Str), id ∉ band →
      pmapGet (awardBand p m band) id = pmapGet m id := by
  intro band
  induction band with
  | nil => intro m id _; rfl
  | cons b rest ih =>
    intro m id hid
    have hstep : awardBand p m (b :: rest) =
        awardBand p (pmapUpd m b (applyMedal p)) rest := rfl
    rw [hstep, ih _ _ (fun h => hid (List.mem_cons_of_mem b h))]
    exact pmapGet_pmapUpd_ne _ _ _ _ (fun h => hid (h ▸ List.mem_cons_self b rest))

theorem awardBand_get_mem (p : Nat) :
    ∀ (band : List (Option Str)) (m : PMap) (id : Option Str),
      id ∈ band → band.Nodup →
      pmapGet (awardBand p m band) id =
        some (applyMedal p ((pmapGet m id).getD Entry.zero)) := by
  intro band
  induction band with
  | nil => intro m id h _; cases h
  | cons b rest ih =>
    intro m id hid hnd
    have hstep : awardBand p m (b :: rest) =
        awardBand p (pmapUpd m b (applyMedal p)) rest := rfl
    obtain ⟨hb, hnd2⟩ := List.nodup_cons.mp hnd
    rcases List.mem_cons.mp hid with rfl | hid2
    · rw [hstep, awardBand_get_not_mem p rest _ id hb]
      exact pmapGet_pmapUpd_self m id (applyMedal p)
    · rw [hstep, ih _ _ hid2 hnd2]
      rw [pmapGet_pmapUpd_ne m b id (applyMedal p)
        (fun h => hb (h ▸ hid2))]

theorem bandGo_bands_nodup (scores : List ScoreRaw) (type : WorkoutType) :
    ∀ (fuel : Nat) (l : List ScoreRaw) (rank : Nat) (band : List (Option Str)),
      band ∈ bandGo scores type fuel l rank → band.Nodup := by
  intro fuel
  induction fuel with
  | zero =>
    intro l rank band h
    cases l <;> simp [bandGo] at h
  | succ f ih =>
    intro l rank band h
    cases l with
    | nil => simp [bandGo] at h
    | cons cur rest =>
      rw [bandGo] at h
      by_cases hr : rank ≤ 3
      · simp only [hr, if_true, List.mem_cons] at h
        rcases h with rfl | h
        · exact dedupIds_nodup _
        · exact ih _ _ _ h
      · simp [hr] at h

/-! ## C6: team expansion and identical team awards -/

/-- **C6.**  (1) Whenever a row `r` of team `t` is part of the tied run
that forms a band, every score row of team `t` has its athlete id in
that band (`rankForDate` builds every band as
`dedupIds (rawBand scores type cur rest)`).  (2) Every member of a band
receives the identical award: awarding a band maps each member's entry
to `applyMedal p` of its previous entry, with the same `p` for all
members — there is no split of points within a team.  (3) Every band
`rankForDate` returns is duplicate-free.  (4) In particular a 2-person
team placing first on a TIME day awards 3 gold points to each of its
two members identically. -/
theorem claim_C6 :
    (∀ (scores : List ScoreRaw) (type : WorkoutType) (cur r : ScoreRaw)
        (rest : List ScoreRaw) (t : Str),
      r ∈ cur :: rest.takeWhile (fun n => tiedB type cur n) →
      r.team_id = some t → truthy r.team_id = true →
      ∀ s ∈ scores, s.team_id = some t →
        s.athlete_id ∈ dedupIds (rawBand scores type cur rest)) ∧
    (∀ (p : Nat) (band : List (Option Str)) (m : PMap) (id : Option Str),
      id ∈ band → band.Nodup →
      pmapGet (awardBand p m band) id =
        some (applyMedal p ((pmapGet m id).getD Entry.zero))) ∧
    (∀ (scores : List ScoreRaw) (type : WorkoutType) (band : List (Option Str)),
      band ∈ rankForDate scores type → band.Nodup) ∧
    (pmapGet (computeMonthlyPoints [exWodTime] [exAnn, exBen, exCarol])
        (some (("ann").toList)) = some ⟨1, 0, 0, 3⟩ ∧
      pmapGet (computeMonthlyPoints [exWodTime] [exAnn, exBen, exCarol])
        (some (("ben").toList)) = some ⟨1, 0, 0, 3⟩) := by
  refine ⟨?_, ?_, ?_, ?_, ?_⟩
  · intro scores type cur r rest t hr hrt htr s hs hst
    rw [mem_dedupIds]
    unfold rawBand
    rw [List.mem_flatten]
    refine ⟨expandEntry scores r, List.mem_map_of_mem (expandEntry scores) hr, ?_⟩
    unfold expandEntry
    rw [htr]
    simp only [if_true]
    refine List.mem_map_of_mem (fun x : ScoreRaw => x.athlete_id) ?_
    rw [List.mem_filter]
    refine ⟨hs, ?_⟩
    rw [hst, hrt]
    simp
  · intro p band m id h1 h2
    exact awardBand_get_mem p band m id h1 h2
  · intro scores type band h
    unfold rankForDate at h
    by_cases ht : (type == WorkoutType.NO_SCORE || type == WorkoutType.UNKNOWN) = true
    · rw [ht] at h
      simp at h
    · rw [Bool.not_eq_true] at ht
      rw [ht] at h
      simp only [Bool.false_eq_true, if_false] at h
      exact bandGo_bands_nodup scores type _ _ _ band h
  · norm_num +decide [computeMonthlyPoints, medalPhase, buildRxMap, addRxBonus, rankForDate,
      bandLoop, bandGo, rawBand, teamRepsOf, individualsOf, dedupByKey, sortByLe, insertLe,
      scoreLe, timeLeB, tiedB, expandEntry, dedupIds, dedupAcc, awardBands, awardBand,
      pointsForRank, applyMedal, pmapUpd, pmapGet, pmapSet, truthy, getEffectiveType,
      rxQualifies, Entry.zero, exAnn, exBen, exCarol, exWodTime]
  · norm_num +decide [computeMonthlyPoints, medalPhase, buildRxMap, addRxBonus, rankForDate,
      bandLoop, bandGo, rawBand, teamRepsOf, individualsOf, dedupByKey, sortByLe, insertLe,
      scoreLe, timeLeB, tiedB, expandEntry, dedupIds, dedupAcc, awardBands, awardBand,
      pointsForRank, applyMedal, pmapUpd, pmapGet, pmapSet, truthy, getEffectiveType,
      rxQualifies, Entry.zero, exAnn, exBen, exCarol, exWodTime]

/-- Witness for C6: the expansion conjunct applied to Ann's team row on
the Scenario-A-style team day (Ben's id lands in the band built from
Ann's run), and the identical-award conjunct applied to a fresh map. -/
theorem claim_C6_witness :
    (some (("ben").toList) ∈
      dedupIds (rawBand [exAnn, exBen, exCarol] WorkoutType.TIME exAnn [exBen, exCarol])) ∧
    pmapGet (awardBand 3 [] [some (("ann").toList), some (("ben").toList)])
        (some (("ben").toList)) =
      some (applyMedal 3 ((pmapGet [] (some (("ben").toList))).getD Entry.zero)) := by
  constructor
  · exact claim_C6.1 [exAnn, exBen, exCarol] WorkoutType.TIME exAnn exAnn [exBen, exCarol]
      (("team1").toList) (List.mem_cons_self _ _) rfl (by decide) exBen
      (by decide) rfl
  · exact claim_C6.2.1 3 [some (("ann").toList), some (("ben").toList)] []
      (some (("ben").toList)) (by decide) (by decide)

/-! ## Rx map lemmas (shared) -/

theorem rxAdd_find_ne :
    ∀ (m : RxMap) (id d k), k ≠ id →
      (rxAdd m id d).find? (fun p => p.1 == k) = m.find? (fun p => p.1 == k) := by
  intro m
  induction m with
  | nil =>
    intro id d k hk
    simp [rxAdd, List.find?, show (id == k) = false by simpa using fun h => hk h.symm]
  | cons q rest ih =>
    intro id d k hk
    obtain ⟨k2, ds⟩ := q
    by_cases h2 : (k2 == id) = true
    · have hk2 : k2 = id := by simpa using h2
      subst hk2
      simp only [rxAdd, h2, if_true]
      simp [List.find?, show (k2 == k) = false by simpa using fun h => hk h.symm]
    · simp only [rxAdd, h2, Bool.false_eq_true, if_false]
      by_cases h3 : (k2 == k) = true
      · simp [List.find?, h3]
      · simp only [List.find?, h3]
        exact ih id d k hk

theorem rxAdd_find_self :
    ∀ (m : RxMap) (id d),
      (rxAdd m id d).find? (fun p => p.1 == id) =
        some (id,
          match m.find? (fun p => p.1 == id) with
          | none => [d]
          | some p => if d ∈ p.2 then p.2 else p.2 ++ [d]) := by
  intro m
  induction m with
  | nil => intro id d; simp [rxAdd, List.find?]
  | cons q rest ih =>
    intro id d
    obtain ⟨k2, ds⟩ := q
    by_cases h2 : (k2 == id) = true
    · have hk2 : k2 = id := by simpa using h2
      subst hk2
      simp [rxAdd, List.find?, h2]
    · simp only [rxAdd, h2, Bool.false_eq_true, if_false, List.find?]
      exact ih id d

theorem rxAdd_keys (m : RxMap) (id : Str) (d : Str) :
    rxMapKeys (rxAdd m id d) =
      if id ∈ rxMapKeys m then rxMapKeys m else rxMapKeys m ++ [id] := by
  induction m with
  | nil => simp [rxAdd, rxMapKeys]
  | cons q rest ih =>
    obtain ⟨k2, ds⟩ := q
    by_cases h2 : (k2 == id) = true
    · have hk2 : k2 = id := by simpa using h2
      subst hk2
      simp [rxAdd, h2, rxMapKeys]
    · have hk2 : ¬k2 = id := by simpa using h2
      have hid : ¬id = k2 := fun h => hk2 h.symm
      simp only [rxAdd, h2, Bool.false_eq_true, if_false]
      simp only [rxMapKeys, List.map_cons] at ih ⊢
      rw [ih]
      by_cases hmem : id ∈ rest.map (fun p => p.1)
      · simp [hmem, List.mem_cons, hid]
      · simp [hmem, List.mem_cons, hid]

theorem rx_find_none (m : RxMap) (a : Str) :
    m.find? (fun p => p.1 == a) = none ↔ a ∉ rxMapKeys m := by
  rw [List.find?_eq_none]
  constructor
  · intro h hmem
    obtain ⟨p, hp, hpa⟩ := List.mem_map.mp hmem
    exact absurd (by simpa using hpa) (by simpa using h p hp)
  · intro h p hp
    simp only [beq_iff_eq]
    intro hpa
    exact h (List.mem_map.mpr ⟨p, hp, hpa⟩)

/-- Effect of one rxMap loop iteration on an athlete's date set. -/
theorem rxStep_dates (wods : List WodRaw) (m : RxMap) (s : ScoreRaw) (a : Str) (d : Str) :
    d ∈ rxMapDates (rxStep wods m s) a ↔
      d ∈ rxMapDates m a ∨
        (rxQualifies wods s = true ∧ s.athlete_id = some a ∧ s.wod_date = d) := by
  by_cases hq : rxQualifies wods s = true
  · have htr : truthy s.athlete_id = true := by
      unfold rxQualifies at hq
      simp only [Bool.and_eq_true] at hq
      exact hq.1.2
    have hex : ∃ b, s.athlete_id = some b := by
      cases hsb : s.athlete_id with
      | none => rw [hsb] at htr; cases htr
      | some b => exact ⟨b, rfl⟩
    obtain ⟨b, hsa⟩ := hex
    have hstep : rxStep wods m s = rxAdd m b s.wod_date := by
      unfold rxStep
      simp [hq, hsa]
    rw [hstep]
    by_cases hab : a = b
    · subst hab
      unfold rxMapDates
      rw [rxAdd_find_self]
      cases hf : m.find? (fun p => p.1 == a) with
        | none =>
          simp only [hf]
          show d ∈ [s.wod_date] ↔ d ∈ ([] : List Str) ∨
            (rxQualifies wods s = true ∧ s.athlete_id = some a ∧ s.wod_date = d)
          rw [List.mem_singleton]
          constructor
          · intro h
            exact Or.inr ⟨hq, hsa, h.symm⟩
          · rintro (h | ⟨_, _, hdd⟩)
            · cases h
            · exact hdd.symm
        | some p =>
          simp only [hf]
          show d ∈ (if s.wod_date ∈ p.2 then p.2 else p.2 ++ [s.wod_date]) ↔
            d ∈ p.2 ∨
              (rxQualifies wods s = true ∧ s.athlete_id = some a ∧ s.wod_date = d)
          by_cases hw : s.wod_date ∈ p.2
          · rw [if_pos hw]
            constructor
            · exact fun h => Or.inl h
            · rintro (h | ⟨_, _, hdd⟩)
              · exact h
              · exact hdd ▸ hw
          · rw [if_neg hw, List.mem_append, List.mem_singleton]
            constructor
            · rintro (h | rfl)
              · exact Or.inl h
              · exact Or.inr ⟨hq, hsa, rfl⟩
            · rintro (h | ⟨_, _, hdd⟩)
              · exact Or.inl h
              · exact Or.inr hdd.symm
    · unfold rxMapDates
      rw [rxAdd_find_ne m b s.wod_date a hab]
      constructor
      · exact fun h => Or.inl h
      · rintro (h | ⟨_, hsb, _⟩)
        · exact h
        · rw [hsa] at hsb
          cases hsb
          exact absurd rfl hab
  · have hstep : rxStep wods m s = m := by
      unfold rxStep
      rw [Bool.not_eq_true] at hq
      rw [hq]
      rfl
    rw [hstep]
    constructor
    · exact fun h => Or.inl h
    · rintro (h | ⟨hq2, _, _⟩)
      · exact h
      · exact absurd hq2 hq

/-- `rxAdd` preserves value non-emptiness. -/
theorem rxAdd_values_ne :
    ∀ (m : RxMap) (b dd : Str), (∀ p ∈ m, p.2 ≠ ([] : List Str)) →
      ∀ p ∈ rxAdd m b dd, p.2 ≠ ([] : List Str) := by
  intro m
  induction m with
  | nil =>
    intro b dd _ p hp
    simp only [rxAdd, List.mem_singleton] at hp
    subst hp
    simp
  | cons q rest ih =>
    intro b dd h3 p hp
    obtain ⟨k2, ds⟩ := q
    by_cases hk : (k2 == b) = true
    · simp only [rxAdd, hk, if_true, List.mem_cons] at hp
      rcases hp with rfl | hp
      · have hne := h3 (k2, ds) (List.mem_cons_self _ _)
        by_cases hw : dd ∈ ds
        · simpa [hw] using hne
        · simp [hw]
      · exact h3 p (List.mem_cons_of_mem _ hp)
    · simp only [rxAdd, hk, Bool.false_eq_true, if_false, List.mem_cons] at hp
      rcases hp with rfl | hp
      · exact h3 (k2, ds) (List.mem_cons_self _ _)
      · exact ih b dd (fun q hq => h3 q (List.mem_cons_of_mem _ hq)) p hp

/-- One rxMap iteration preserves key uniqueness, date-set uniqueness
and value non-emptiness. -/
theorem rxStep_invariants (wods : List WodRaw) (m : RxMap) (s : ScoreRaw)
    (h1 : (rxMapKeys m).Nodup) (h2 : ∀ a, (rxMapDates m a).Nodup)
    (h3 : ∀ p ∈ m, p.2 ≠ ([] : List Str)) :
    (rxMapKeys (rxStep wods m s)).Nodup ∧
      (∀ a, (rxMapDates (rxStep wods m s) a).Nodup) ∧
      (∀ p ∈ rxStep wods m s, p.2 ≠ ([] : List Str)) := by
  by_cases hq : rxQualifies wods s = true
  · cases hsa : s.athlete_id with
    | none =>
      have hstep : rxStep wods m s = m := by
        unfold rxStep
        simp [hq, hsa]
      rw [hstep]
      exact ⟨h1, h2, h3⟩
    | some b =>
      have hstep : rxStep wods m s = rxAdd m b s.wod_date := by
        unfold rxStep
        simp [hq, hsa]
      rw [hstep]
      refine ⟨?_, ?_, rxAdd_values_ne m b s.wod_date h3⟩
      · rw [rxAdd_keys]
        by_cases hmem : b ∈ rxMapKeys m
        · rw [if_pos hmem]
          exact h1
        · rw [if_neg hmem]
          rw [List.nodup_append]
          refine ⟨h1, List.nodup_singleton b, fun x hx hxb => ?_⟩
          rw [List.mem_singleton] at hxb
          subst hxb
          exact hmem hx
      · intro a
        by_cases hab : a = b
        · subst hab
          unfold rxMapDates
          rw [rxAdd_find_self]
          cases hf : m.find? (fun p => p.1 == a) with
          | none =>
            show ([s.wod_date]).Nodup
            exact List.nodup_singleton _
          | some p =>
            have hp2 : p.2.Nodup := by
              have hh := h2 a
              unfold rxMapDates at hh
              rw [hf] at hh
              exact hh
            show (if s.wod_date ∈ p.2 then p.2 else p.2 ++ [s.wod_date]).Nodup
            by_cases hw : s.wod_date ∈ p.2
            · rw [if_pos hw]
              exact hp2
            · rw [if_neg hw]
              rw [List.nodup_append]
              refine ⟨hp2, List.nodup_singleton _, fun x hx hxw => ?_⟩
              rw [List.mem_singleton] at hxw
              subst hxw
              exact hw hx
        · unfold rxMapDates
          rw [rxAdd_find_ne m b s.wod_date a hab]
          exact h2 a
  · have hstep : rxStep wods m s = m := by
      unfold rxStep
      rw [Bool.not_eq_true] at hq
      rw [hq]
      rfl
    rw [hstep]
    exact ⟨h1, h2, h3⟩

/-- The rxMap fold: starting from any well-formed accumulator, the
result is well-formed and an athlete's date set collects exactly the
dates of that athlete's qualifying Rx submissions. -/
theorem buildRx_fold (wods : List WodRaw) :
    ∀ (scores : List ScoreRaw) (m : RxMap),
      (rxMapKeys m).Nodup → (∀ a, (rxMapDates m a).Nodup) →
      (∀ p ∈ m, p.2 ≠ ([] : List Str)) →
      (rxMapKeys (scores.foldl (rxStep wods) m)).Nodup ∧
        (∀ a, (rxMapDates (scores.foldl (rxStep wods) m) a).Nodup) ∧
        (∀ p ∈ scores.foldl (rxStep wods) m, p.2 ≠ ([] : List Str)) ∧
        (∀ a d, d ∈ rxMapDates (scores.foldl (rxStep wods) m) a ↔
          d ∈ rxMapDates m a ∨
            ∃ s ∈ scores, rxQualifies wods s = true ∧ s.athlete_id = some a ∧
              s.wod_date = d) := by
  intro scores
  induction scores with
  | nil =>
    intro m h1 h2 h3
    refine ⟨h1, h2, h3, ?_⟩
    simp
  | cons s rest ih =>
    intro m h1 h2 h3
    obtain ⟨g1, g2, g3⟩ := rxStep_invariants wods m s h1 h2 h3
    obtain ⟨r1, r2, r3, r4⟩ := ih (rxStep wods m s) g1 g2 g3
    rw [List.foldl_cons]
    refine ⟨r1, r2, r3, ?_⟩
    intro a d
    rw [r4 a d, rxStep_dates]
    constructor
    · rintro ((h | h) | ⟨s2, hs2, hq⟩)
      · exact Or.inl h
      · exact Or.inr ⟨s, List.mem_cons_self _ _, h⟩
      · exact Or.inr ⟨s2, List.mem_cons_of_mem _ hs2, hq⟩
    · rintro (h | ⟨s2, hs2, hq⟩)
      · exact Or.inl (Or.inl h)
      · rcases List.mem_cons.mp hs2 with rfl | hs3
        · exact Or.inl (Or.inr hq)
        · exact Or.inr ⟨s2, hs3, hq⟩

/-- Lookup after the bonus phase, for an rxMap with unique keys: absent
athletes are untouched, present athletes get `0.5 × (number of dates)`
added to their total and nothing else changed. -/
theorem addRxBonus_get :
    ∀ (rx : RxMap) (m : PMap) (a : Str), (rxMapKeys rx).Nodup →
      pmapGet (addRxBonus m rx) (some a) =
        match rx.find? (fun p => p.1 == a) with
        | none => pmapGet m (some a)
        | some p =>
          some { (pmapGet m (some a)).getD Entry.zero with
                 total := ((pmapGet m (some a)).getD Entry.zero).total +
                   (p.2.length : Rat) * (1 / 2) } := by
  intro rx
  induction rx with
  | nil => intro m a _; rfl
  | cons q rest ih =>
    intro m a hnd
    obtain ⟨k, ds⟩ := q
    have hnd1 : (k :: rxMapKeys rest).Nodup := by simpa [rxMapKeys] using hnd
    obtain ⟨hk, hnd2⟩ := List.nodup_cons.mp hnd1
    have hstep : addRxBonus m ((k, ds) :: rest) =
        addRxBonus (pmapUpd m (some k)
          (fun e => { e with total := e.total + ((ds.length : Rat)) * (1 / 2) })) rest := rfl
    by_cases hak : (k == a) = true
    · have hka : k = a := by simpa using hak
      subst hka
      have hfr : rest.find? (fun p => p.1 == k) = none :=
        (rx_find_none rest k).mpr hk
      rw [hstep, ih _ _ hnd2, hfr]
      simp only [List.find?, hak]
      rw [pmapGet_pmapUpd_self]
    · rw [hstep, ih _ _ hnd2]
      have hka : ¬k = a := by simpa using hak
      have hne : (some k : Option Str) ≠ some a := fun h => hka (by injection h)
      rw [pmapGet_pmapUpd_ne m (some k) (some a) _ hne]
      simp only [List.find?, hak]

/-! ## C7: the Rx bonus -/

/-- **C7.** For every athlete and window: the athlete's Rx date set is
duplicate-free (first conjunct) and contains exactly the dates on which
the athlete has an `is_rx` record attached to a scoreable wod (second
conjunct — one entry per unique date no matter how many records that
date produced); an athlete with no such date has exactly the medal-phase
entry (third conjunct); an athlete with such dates has the medal-phase
entry with `0.5` added per date to `total` and the gold, silver and
bronze counts unchanged (fourth conjunct: only the `total` field is
rewritten). -/
theorem claim_C7 (wods : List WodRaw) (scores : List ScoreRaw) (a : Str) :
    (rxDates wods scores a).Nodup ∧
    (∀ d, d ∈ rxDates wods scores a ↔
      ∃ s ∈ scores, rxQualifies wods s = true ∧ s.athlete_id = some a ∧
        s.wod_date = d) ∧
    (rxDates wods scores a = [] →
      pmapGet (computeMonthlyPoints wods scores) (some a) =
        pmapGet (medalPhase wods scores) (some a)) ∧
    (rxDates wods scores a ≠ [] →
      pmapGet (computeMonthlyPoints wods scores) (some a) =
        some { (pmapGet (medalPhase wods scores) (some a)).getD Entry.zero with
               total := ((pmapGet (medalPhase wods scores) (some a)).getD Entry.zero).total +
                 ((rxDates wods scores a).length : Rat) * (1 / 2) }) := by
  obtain ⟨h1, h2, h3, h4⟩ := buildRx_fold wods scores [] (by simp [rxMapKeys])
    (fun a2 => by simp [rxMapDates]) (by simp)
  have hbuild : scores.foldl (rxStep wods) [] = buildRxMap wods scores := rfl
  rw [hbuild] at h1 h2 h3 h4
  have hdates : rxDates wods scores a = rxMapDates (buildRxMap wods scores) a := rfl
  have hget := addRxBonus_get (buildRxMap wods scores) (medalPhase wods scores) a h1
  refine ⟨?_, ?_, ?_, ?_⟩
  · rw [hdates]
    exact h2 a
  · intro d
    rw [hdates]
    rw [h4 a d]
    simp [rxMapDates]
  · intro hempty
    rw [hdates] at hempty
    have hfn : (buildRxMap wods scores).find? (fun p => p.1 == a) = none := by
      cases hf : (buildRxMap wods scores).find? (fun p => p.1 == a) with
      | none => rfl
      | some p =>
        have hne := h3 p (List.mem_of_find?_eq_some hf)
        unfold rxMapDates at hempty
        rw [hf] at hempty
        have hempty2 : p.2 = [] := hempty
        exact absurd hempty2 hne
    show pmapGet (addRxBonus (medalPhase wods scores) (buildRxMap wods scores)) (some a) = _
    rw [hget, hfn]
  · intro hne
    rw [hdates] at hne
    cases hf : (buildRxMap wods scores).find? (fun p => p.1 == a) with
    | none =>
      unfold rxMapDates at hne
      rw [hf] at hne
      simp at hne
    | some p =>
      have hda : rxMapDates (buildRxMap wods scores) a = p.2 := by
        unfold rxMapDates
        rw [hf]
        rfl
      show pmapGet (addRxBonus (medalPhase wods scores) (buildRxMap wods scores)) (some a) = _
      rw [hget, hf, hdates, hda]

/-- Witness for C7 at a two-wod window where Alice posts Rx on one
scoreable date: her total is her medal total plus `0.5`, medals
unchanged. -/
theorem claim_C7_witness :
    pmapGet (computeMonthlyPoints [exWodTime] [exAliceRx, exBob]) (some (("alice").toList)) =
      some { (pmapGet (medalPhase [exWodTime] [exAliceRx, exBob])
              (some (("alice").toList))).getD Entry.zero with
             total := ((pmapGet (medalPhase [exWodTime] [exAliceRx, exBob])
               (some (("alice").toList))).getD Entry.zero).total +
               (((rxDates [exWodTime] [exAliceRx, exBob] (("alice").toList)).length : Rat)) *
                 (1 / 2) } :=
  (claim_C7 [exWodTime] [exAliceRx, exBob] (("alice").toList)).2.2.2 (by decide)

/-! ## Order lemmas for the TIME comparator (shared) -/

theorem timeLeB_total (x y : Option Int) : timeLeB x y = true ∨ timeLeB y x = true := by
  cases x <;> cases y <;> simp [timeLeB] <;> omega

theorem timeLeB_trans (x y z : Option Int) (h1 : timeLeB x y = true)
    (h2 : timeLeB y z = true) : timeLeB x z = true := by
  cases x <;> cases y <;> cases z <;> simp_all [timeLeB] <;> omega

theorem timeLtB_of_le_ne (x y : Option Int) (h1 : timeLeB x y = true) (h2 : ¬x = y) :
    timeLtB x y = true := by
  cases x <;> cases y <;> simp_all [timeLeB, timeLtB] <;> omega

theorem timeLtB_eq_false_of_eq (x y : Option Int) (h : x = y) : timeLtB x y = false := by
  subst h
  cases x <;> simp [timeLtB]

theorem timeLtB_asymm (x y : Option Int) (h : timeLtB x y = true) :
    timeLtB y x = false := by
  cases x <;> cases y <;> simp_all [timeLtB] <;> omega

theorem timeLtB_lt_of_lt_of_le (x y z : Option Int) (h1 : timeLtB x y = true)
    (h2 : timeLeB y z = true) : timeLtB x z = true := by
  cases x <;> cases y <;> cases z <;> simp_all [timeLtB, timeLeB] <;> omega

/-! ## Stable sort lemmas (shared) -/

theorem insertLe_perm (le : ScoreRaw → ScoreRaw → Bool) (a : ScoreRaw) :
    ∀ l, List.Perm (insertLe le a l) (a :: l) := by
  intro l
  induction l with
  | nil => exact List.Perm.refl _
  | cons b rest ih =>
    by_cases h : le a b = true
    · simp [insertLe, h]
    · simp only [insertLe, h, Bool.false_eq_true, if_false]
      exact (ih.cons b).trans (List.Perm.swap a b rest)

theorem sortByLe_perm (le : ScoreRaw → ScoreRaw → Bool) :
    ∀ l, List.Perm (sortByLe le l) l := by
  intro l
  induction l with
  | nil => exact List.Perm.refl _
  | cons a rest ih => exact (insertLe_perm le a _).trans (ih.cons a)

theorem insertLe_pairwise (le : ScoreRaw → ScoreRaw → Bool)
    (htot : ∀ x y, le x y = true ∨ le y x = true)
    (htrans : ∀ x y z, le x y = true → le y z = true → le x z = true)
    (a : ScoreRaw) :
    ∀ l, l.Pairwise (fun x y => le x y = true) →
      (insertLe le a l).Pairwise (fun x y => le x y = true) := by
  intro l
  induction l with
  | nil =>
    intro _
    simp [insertLe]
  | cons b rest ih =>
    intro hpw
    obtain ⟨hb, hrest⟩ := List.pairwise_cons.mp hpw
    by_cases h : le a b = true
    · simp only [insertLe, h, if_true]
      rw [List.pairwise_cons]
      constructor
      · intro x hx
        rcases List.mem_cons.mp hx with rfl | hx
        · exact h
        · exact htrans a b x h (hb x hx)
      · exact hpw
    · simp only [insertLe, h, Bool.false_eq_true, if_false]
      rw [List.pairwise_cons]
      constructor
      · intro x hx
        have hx2 : x ∈ a :: rest := (insertLe_perm le a rest).mem_iff.mp hx
        rcases List.mem_cons.mp hx2 with rfl | hx2
        · rcases htot x b with h2 | h2
          · exact absurd h2 h
          · exact h2
        · exact hb x hx2
      · exact ih hrest

theorem sortByLe_pairwise (le : ScoreRaw → ScoreRaw → Bool)
    (htot : ∀ x y, le x y = true ∨ le y x = true)
    (htrans : ∀ x y z, le x y = true → le y z = true → le x z = true) :
    ∀ l, (sortByLe le l).Pairwise (fun x y => le x y = true) := by
  intro l
  induction l with
  | nil => simp [sortByLe]
  | cons a rest ih => exact insertLe_pairwise le htot htrans a _ ih

/-! ## Band construction lemmas for solo TIME days (shared) -/

theorem scoreLe_TIME (a b : ScoreRaw) :
    scoreLe WorkoutType.TIME a b = timeLeB a.time_seconds b.time_seconds := rfl

theorem tiedB_TIME (a b : ScoreRaw) :
    tiedB WorkoutType.TIME a b = (a.time_seconds == b.time_seconds) := rfl

theorem expandEntry_solo (scores : List ScoreRaw) (x : ScoreRaw)
    (h : truthy x.team_id = false) : expandEntry scores x = [x.athlete_id] := by
  unfold expandEntry
  rw [h]
  rfl

theorem flatten_map_singleton (f : ScoreRaw → Option Str) :
    ∀ l : List ScoreRaw, (l.map (fun x => [f x])).flatten = l.map f := by
  intro l
  induction l with
  | nil => rfl
  | cons a rest ih => simp [ih]

theorem rawBand_solo (scores : List ScoreRaw) (cur : ScoreRaw) (rest : List ScoreRaw)
    (hsolo : ∀ x ∈ cur :: rest, truthy x.team_id = false) :
    rawBand scores WorkoutType.TIME cur rest =
      (cur :: rest.takeWhile (fun n => tiedB WorkoutType.TIME cur n)).map
        (fun x => x.athlete_id) := by
  unfold rawBand
  rw [List.map_congr_left (g := fun x => [x.athlete_id])]
  · exact flatten_map_singleton _ _
  · intro x hx
    refine expandEntry_solo scores x (hsolo x ?_)
    rcases List.mem_cons.mp hx with rfl | hx
    · exact List.mem_cons_self _ _
    · exact List.mem_cons_of_mem _ (List.takeWhile_sublist _ |>.mem hx)

theorem dedupAcc_eq_self :
    ∀ (l seen : List (Option Str)), l.Nodup → (∀ x ∈ l, x ∉ seen) →
      dedupAcc seen l = l := by
  intro l
  induction l with
  | nil => intro seen _ _; rfl
  | cons a rest ih =>
    intro seen hnd hsee
    obtain ⟨ha, hnd2⟩ := List.nodup_cons.mp hnd
    rw [dedupAcc, if_neg (hsee a (List.mem_cons_self _ _))]
    rw [ih (a :: seen) hnd2]
    intro x hx
    rw [List.mem_cons]
    rintro (rfl | h)
    · exact ha hx
    · exact hsee x (List.mem_cons_of_mem _ hx) h

theorem dedupIds_eq_self (l : List (Option Str)) (h : l.Nodup) : dedupIds l = l :=
  dedupAcc_eq_self l [] h (by simp)

theorem awardBands_get_not_mem_all :
    ∀ (bands : List (List (Option Str))) (m : PMap) (rank : Nat) (id : Option Str),
      (∀ b ∈ bands, id ∉ b) →
      pmapGet (awardBands m bands rank) id = pmapGet m id := by
  intro bands
  induction bands with
  | nil => intro m rank id _; rfl
  | cons b rest ih =>
    intro m rank id hid
    rw [awardBands]
    by_cases hp : (pointsForRank rank == 0) = true
    · rw [if_pos hp]
    · simp only [hp, Bool.false_eq_true, if_false]
      rw [ih _ _ _ (fun b2 hb2 => hid b2 (List.mem_cons_of_mem _ hb2))]
      exact awardBand_get_not_mem _ _ _ _ (hid b (List.mem_cons_self _ _))

theorem bandGo_members (scores : List ScoreRaw) :
    ∀ (fuel : Nat) (l : List ScoreRaw) (rank : Nat) (band : List (Option Str))
      (x : Option Str),
      (∀ e ∈ l, truthy e.team_id = false) →
      band ∈ bandGo scores WorkoutType.TIME fuel l rank → x ∈ band →
      x ∈ l.map (fun s => s.athlete_id) := by
  intro fuel
  induction fuel with
  | zero =>
    intro l rank band x _ hb _
    cases l <;> simp [bandGo] at hb
  | succ f ih =>
    intro l rank band x hsolo hb hx
    cases l with
    | nil => simp [bandGo] at hb
    | cons cur rest =>
      rw [bandGo] at hb
      by_cases hr : rank ≤ 3
      · simp only [hr, if_true, List.mem_cons] at hb
        rcases hb with rfl | hb
        · rw [mem_dedupIds] at hx
          rw [rawBand_solo scores cur rest hsolo] at hx
          obtain ⟨e, he, rfl⟩ := List.mem_map.mp hx
          refine List.mem_map_of_mem _ ?_
          rcases List.mem_cons.mp he with rfl | he
          · exact List.mem_cons_self _ _
          · exact List.mem_cons_of_mem _ (List.takeWhile_sublist _ |>.mem he)
        · have hx2 := ih _ _ _ x
            (fun e he => hsolo e (List.mem_cons_of_mem _ (List.dropWhile_sublist _ |>.mem he)))
            hb hx
          obtain ⟨e, he, rfl⟩ := List.mem_map.mp hx2
          exact List.mem_map_of_mem _
            (List.mem_cons_of_mem _ (List.dropWhile_sublist _ |>.mem he))
      · simp [hr] at hb

theorem gt_of_dropWhile (cur : ScoreRaw) :
    ∀ rest : List ScoreRaw,
      (∀ b ∈ rest, timeLeB cur.time_seconds b.time_seconds = true) →
      rest.Pairwise (fun x y => timeLeB x.time_seconds y.time_seconds = true) →
      ∀ y ∈ rest.dropWhile (fun n => tiedB WorkoutType.TIME cur n),
        timeLtB cur.time_seconds y.time_seconds = true := by
  intro rest
  induction rest with
  | nil => intro _ _ y hy; simp [List.dropWhile] at hy
  | cons r rs ih =>
    intro hall hpw y hy
    obtain ⟨hr1, hpw2⟩ := List.pairwise_cons.mp hpw
    by_cases ht : tiedB WorkoutType.TIME cur r = true
    · rw [List.dropWhile_cons_of_pos ht] at hy
      exact ih (fun b hb => hall b (List.mem_cons_of_mem _ hb)) hpw2 y hy
    · rw [List.dropWhile_cons_of_neg ht] at hy
      have hne : ¬cur.time_seconds = r.time_seconds := by
        rw [tiedB_TIME] at ht
        simpa using ht
      have hltr : timeLtB cur.time_seconds r.time_seconds = true :=
        timeLtB_of_le_ne _ _ (hall r (List.mem_cons_self _ _)) hne
      rcases List.mem_cons.mp hy with rfl | hy
      · exact hltr
      · exact timeLtB_lt_of_lt_of_le _ _ _ hltr (hr1 y hy)

theorem pointsForRank_ne_zero (rank : Nat) (h1 : 1 ≤ rank) (h2 : rank ≤ 3) :
    ¬pointsForRank rank = 0 := by
  interval_cases rank <;> decide

/-- The joint behaviour of the banding loop and the award walk on a
sorted solo TIME day: every record is awarded by the competition-rank
position `rank + (number of records that strictly beat it)`. -/
theorem award_bandGo_time (scores : List ScoreRaw) :
    ∀ (fuel : Nat) (L : List ScoreRaw) (rank : Nat) (m : PMap),
      L.length ≤ fuel →
      (∀ x ∈ L, truthy x.team_id = false) →
      L.Pairwise (fun x y => timeLeB x.time_seconds y.time_seconds = true) →
      (L.map (fun s => s.athlete_id)).Nodup →
      1 ≤ rank →
      ∀ s ∈ L,
        pmapGet (awardBands m (bandGo scores WorkoutType.TIME fuel L rank) rank)
            s.athlete_id =
          if rank + timeBeats L s ≤ 3 then
            some (applyMedal (pointsForRank (rank + timeBeats L s))
              ((pmapGet m s.athlete_id).getD Entry.zero))
          else pmapGet m s.athlete_id := by
  intro fuel
  induction fuel with
  | zero =>
    intro L rank m hfuel _ _ _ _ s hs
    have hL : L = [] := List.eq_nil_of_length_eq_zero (Nat.le_zero.mp hfuel)
    subst hL
    cases hs
  | succ f ih =>
    intro L rank m hfuel hsolo hsort hnodup hrank s hs
    cases L with
    | nil => cases hs
    | cons cur rest =>
      obtain ⟨hallle, hpwrest⟩ := List.pairwise_cons.mp hsort
      have hsplit : rest.takeWhile (fun n => tiedB WorkoutType.TIME cur n) ++
          rest.dropWhile (fun n => tiedB WorkoutType.TIME cur n) = rest := by
        apply List.takeWhile_append_dropWhile
      have hgrpkey :
          ∀ x ∈ cur :: rest.takeWhile (fun n => tiedB WorkoutType.TIME cur n),
            x.time_seconds = cur.time_seconds := by
        intro x hx
        rcases List.mem_cons.mp hx with rfl | hx
        · rfl
        · have h0 := List.mem_takeWhile_imp hx
          rw [tiedB_TIME] at h0
          have h2 : cur.time_seconds = x.time_seconds := by simpa using h0
          exact h2.symm
      have hgt : ∀ y ∈ rest.dropWhile (fun n => tiedB WorkoutType.TIME cur n),
          timeLtB cur.time_seconds y.time_seconds = true :=
        gt_of_dropWhile cur rest hallle hpwrest
      have hraw : rawBand scores WorkoutType.TIME cur rest =
          (cur :: rest.takeWhile (fun n => tiedB WorkoutType.TIME cur n)).map
            (fun x => x.athlete_id) := rawBand_solo scores cur rest hsolo
      have hgrpsub :
          (cur :: rest.takeWhile (fun n => tiedB WorkoutType.TIME cur n)).Sublist
            (cur :: rest) :=
        List.Sublist.cons₂ cur (List.takeWhile_sublist _)
      have hrestsub :
          (rest.dropWhile (fun n => tiedB WorkoutType.TIME cur n)).Sublist (cur :: rest) :=
        (List.dropWhile_sublist _).trans (List.sublist_cons_self cur rest)
      have hbandnd :
          ((cur :: rest.takeWhile (fun n => tiedB WorkoutType.TIME cur n)).map
            (fun x => x.athlete_id)).Nodup :=
        hnodup.sublist (hgrpsub.map _)
      have hband : dedupIds (rawBand scores WorkoutType.TIME cur rest) =
          (cur :: rest.takeWhile (fun n => tiedB WorkoutType.TIME cur n)).map
            (fun x => x.athlete_id) := by
        rw [hraw]
        exact dedupIds_eq_self _ hbandnd
      by_cases hr3 : rank ≤ 3
      · -- the band is emitted and awarded
        have hunf : bandGo scores WorkoutType.TIME (f + 1) (cur :: rest) rank =
            dedupIds (rawBand scores WorkoutType.TIME cur rest) ::
              bandGo scores WorkoutType.TIME f
                (rest.dropWhile (fun n => tiedB WorkoutType.TIME cur n))
                (rank + (rawBand scores WorkoutType.TIME cur rest).length) := by
          rw [bandGo]
          simp only [hr3, if_true]
        have hpne : ¬pointsForRank rank = 0 := pointsForRank_ne_zero rank hrank hr3
        have hpfalse : (pointsForRank rank == 0) = false := by simpa using hpne
        have hlens : (dedupIds (rawBand scores WorkoutType.TIME cur rest)).length =
            (rawBand scores WorkoutType.TIME cur rest).length := by
          rw [hband, hraw]
        have haward : awardBands m
            (bandGo scores WorkoutType.TIME (f + 1) (cur :: rest) rank) rank =
            awardBands
              (awardBand (pointsForRank rank) m
                (dedupIds (rawBand scores WorkoutType.TIME cur rest)))
              (bandGo scores WorkoutType.TIME f
                (rest.dropWhile (fun n => tiedB WorkoutType.TIME cur n))
                (rank + (rawBand scores WorkoutType.TIME cur rest).length))
              (rank + (rawBand scores WorkoutType.TIME cur rest).length) := by
          rw [hunf, awardBands]
          simp only [hpfalse, Bool.false_eq_true, if_false, hlens]
        rw [haward]
        have hndL : ((cur :: rest).map (fun s => s.athlete_id)).Nodup := hnodup
        have hdisj : ∀ x : Option Str,
            x ∈ (cur :: rest.takeWhile (fun n => tiedB WorkoutType.TIME cur n)).map
              (fun s => s.athlete_id) →
            x ∈ (rest.dropWhile (fun n => tiedB WorkoutType.TIME cur n)).map
              (fun s => s.athlete_id) → False := by
          have hcat : (cur :: rest).map (fun s => s.athlete_id) =
              ((cur :: rest.takeWhile (fun n => tiedB WorkoutType.TIME cur n)).map
                (fun s => s.athlete_id)) ++
              ((rest.dropWhile (fun n => tiedB WorkoutType.TIME cur n)).map
                (fun s => s.athlete_id)) := by
            rw [← List.map_append]
            rw [List.cons_append, hsplit]
          intro x h1 h2
          rw [hcat] at hndL
          obtain ⟨_, _, hd0⟩ := List.nodup_append.mp hndL
          exact hd0 h1 h2
        have hmemsplit :
            s ∈ cur :: rest.takeWhile (fun n => tiedB WorkoutType.TIME cur n) ∨
              s ∈ rest.dropWhile (fun n => tiedB WorkoutType.TIME cur n) := by
          rcases List.mem_cons.mp hs with h | hsrest
          · exact Or.inl (h ▸ List.mem_cons_self _ _)
          · rw [← hsplit] at hsrest
            rcases List.mem_append.mp hsrest with h | h
            · exact Or.inl (List.mem_cons_of_mem _ h)
            · exact Or.inr h
        rcases hmemsplit with hsg | hsr
        · -- s is in the first (best) band: no record beats it
          have hskey : s.time_seconds = cur.time_seconds := hgrpkey s hsg
          have hcnt : timeBeats (cur :: rest) s = 0 := by
            unfold timeBeats
            rw [List.length_eq_zero]
            rw [List.filter_eq_nil_iff]
            intro x hx
            rw [← hsplit, ← List.cons_append] at hx
            rcases List.mem_append.mp hx with hx | hx
            · have hxk := hgrpkey x hx
              have hxs : x.time_seconds = s.time_seconds := by rw [hxk, hskey]
              simp [timeLtB_eq_false_of_eq x.time_seconds s.time_seconds hxs]
            · have h1 := hgt x hx
              have h1b : timeLtB s.time_seconds x.time_seconds = true := by
                rw [hskey]
                exact h1
              have h2 : timeLtB x.time_seconds s.time_seconds = false :=
                timeLtB_asymm _ _ h1b
              simp [h2]
          rw [hcnt, Nat.add_zero, if_pos hr3]
          have hmem : s.athlete_id ∈
              (cur :: rest.takeWhile (fun n => tiedB WorkoutType.TIME cur n)).map
                (fun x => x.athlete_id) :=
            List.mem_map_of_mem _ hsg
          rw [awardBands_get_not_mem_all _ _ _ _ ?hnot]
          case hnot =>
            intro b hb hmem2
            have hx2 := bandGo_members scores f _ _ b s.athlete_id
              (fun e he => hsolo e (hrestsub.mem he)) hb hmem2
            exact hdisj s.athlete_id hmem hx2
          rw [hband]
          exact awardBand_get_mem _ _ _ _ hmem hbandnd
        · -- s comes after the first band
          have hlt : timeLtB cur.time_seconds s.time_seconds = true := hgt s hsr
          have hfiltergrp :
              (cur :: rest.takeWhile (fun n => tiedB WorkoutType.TIME cur n)).filter
                  (fun x => timeLtB x.time_seconds s.time_seconds) =
                cur :: rest.takeWhile (fun n => tiedB WorkoutType.TIME cur n) := by
            rw [List.filter_eq_self]
            intro x hx
            have hxk := hgrpkey x hx
            rw [show timeLtB x.time_seconds s.time_seconds =
              timeLtB cur.time_seconds s.time_seconds by rw [hxk]]
            rw [hlt]
          have hcnt : timeBeats (cur :: rest) s =
              (cur :: rest.takeWhile (fun n => tiedB WorkoutType.TIME cur n)).length +
                timeBeats (rest.dropWhile (fun n => tiedB WorkoutType.TIME cur n)) s := by
            unfold timeBeats
            conv_lhs => rw [← hsplit, ← List.cons_append]
            rw [List.filter_append, List.length_append, hfiltergrp]
          have hmemid : s.athlete_id ∈
              (rest.dropWhile (fun n => tiedB WorkoutType.TIME cur n)).map
                (fun s => s.athlete_id) :=
            List.mem_map_of_mem _ hsr
          have hm2 : pmapGet
              (awardBand (pointsForRank rank) m
                (dedupIds (rawBand scores WorkoutType.TIME cur rest)))
              s.athlete_id = pmapGet m s.athlete_id := by
            rw [hband]
            exact awardBand_get_not_mem _ _ _ _ (fun h => hdisj s.athlete_id h hmemid)
          have hlenraw : (rawBand scores WorkoutType.TIME cur rest).length =
              (cur :: rest.takeWhile (fun n => tiedB WorkoutType.TIME cur n)).length := by
            rw [hraw, List.length_map]
          have hfl : (rest.dropWhile (fun n => tiedB WorkoutType.TIME cur n)).length ≤ f := by
            have h1 : (rest.dropWhile (fun n => tiedB WorkoutType.TIME cur n)).length ≤
                rest.length := (List.dropWhile_sublist _).length_le
            have h2 : rest.length + 1 ≤ f + 1 := by simpa using hfuel
            omega
          have hih := ih (rest.dropWhile (fun n => tiedB WorkoutType.TIME cur n))
            (rank + (rawBand scores WorkoutType.TIME cur rest).length)
            (awardBand (pointsForRank rank) m
              (dedupIds (rawBand scores WorkoutType.TIME cur rest)))
            hfl
            (fun e he => hsolo e (hrestsub.mem he))
            (hpwrest.sublist (List.dropWhile_sublist _))
            (hnodup.sublist (hrestsub.map _))
            (by omega)
            s hsr
          rw [hih, hm2, hlenraw]
          have harith1 : rank + (cur :: rest.takeWhile
              (fun n => tiedB WorkoutType.TIME cur n)).length +
                timeBeats (rest.dropWhile (fun n => tiedB WorkoutType.TIME cur n)) s =
              rank + timeBeats (cur :: rest) s := by
            rw [hcnt]
            omega
          rw [harith1]
      · -- the running rank is already beyond 3: nothing is emitted
        have hunf : bandGo scores WorkoutType.TIME (f + 1) (cur :: rest) rank = [] := by
          rw [bandGo]
          simp only [hr3, if_false]
        rw [hunf]
        have hcnt3 : ¬rank + timeBeats (cur :: rest) s ≤ 3 := by omega
        rw [if_neg hcnt3]
        rfl

theorem rxQualifies_false_of_not_rx (wods : List WodRaw) (s : ScoreRaw)
    (h : s.is_rx = false) : rxQualifies wods s = false := by
  unfold rxQualifies
  rw [h]
  rfl

theorem buildRxMap_empty (wods : List WodRaw) (scores : List ScoreRaw)
    (h : ∀ s ∈ scores, s.is_rx = false) : buildRxMap wods scores = [] := by
  unfold buildRxMap
  have hgen : ∀ (l : List ScoreRaw) (m : RxMap), (∀ s ∈ l, s.is_rx = false) →
      l.foldl (rxStep wods) m = m := by
    intro l
    induction l with
    | nil => intro m _; rfl
    | cons s rest ih =>
      intro m hl
      rw [List.foldl_cons]
      have hstep : rxStep wods m s = m := by
        unfold rxStep
        rw [rxQualifies_false_of_not_rx wods s (hl s (List.mem_cons_self _ _))]
        rfl
      rw [hstep]
      exact ih m (fun x hx => hl x (List.mem_cons_of_mem _ hx))
  exact hgen scores [] h

theorem dedupByKey_eq_self {κ : Type} [DecidableEq κ] (key : ScoreRaw → κ) :
    ∀ (l : List ScoreRaw) (seen : List κ), (l.map key).Nodup →
      (∀ x ∈ l, key x ∉ seen) → dedupByKey key seen l = l := by
  intro l
  induction l with
  | nil => intro seen _ _; rfl
  | cons a rest ih =>
    intro seen hnd hsee
    have hnd1 : (key a :: rest.map key).Nodup := by simpa using hnd
    obtain ⟨ha, hnd2⟩ := List.nodup_cons.mp hnd1
    rw [dedupByKey, if_neg (hsee a (List.mem_cons_self _ _))]
    rw [ih (key a :: seen) hnd2]
    intro x hx
    rw [List.mem_cons]
    rintro (he | h)
    · exact ha (he ▸ List.mem_map_of_mem key hx)
    · exact hsee x (List.mem_cons_of_mem _ hx) h

/-! ## C1: competition-ranking semantics of the points aggregator -/

/-- **C1.**  General conjunct: on any solo TIME day (one wod, every
record on its date, no teams, no Rx, distinct athletes), the aggregation
awards each record by the competition-rank position
`1 + (number of records strictly beating it)`: tied entries have equal
beating counts and so share one position, the next distinct value's
position advances by the size of the previous tied band, and the
position maps through `pointsForRank` (1 → gold/3, 2 → silver/2,
3 → bronze/1, otherwise nothing — the athlete is then absent from the
map).  Second conjunct (spec Scenario A): for TIME records
Alice = 600 s, Bob = 600 s, Carol = 650 s, Alice and Bob each receive
gold (3 points) and Carol receives bronze (1 point), not silver. -/
theorem claim_C1 :
    (∀ (wod : WodRaw) (scores : List ScoreRaw),
      getEffectiveType wod = WorkoutType.TIME →
      (∀ s ∈ scores, s.wod_date = wod.wod_date) →
      (∀ s ∈ scores, s.team_id = none) →
      (∀ s ∈ scores, s.is_rx = false) →
      (scores.map (fun s => s.athlete_id)).Nodup →
      ∀ s ∈ scores,
        pmapGet (computeMonthlyPoints [wod] scores) s.athlete_id =
          if 1 + timeBeats scores s ≤ 3 then
            some (medalEntry (pointsForRank (1 + timeBeats scores s)))
          else none) ∧
    computeMonthlyPoints [exWodTime] [exAlice, exBob, exCarol] =
      [(some (("alice").toList), ⟨1, 0, 0, 3⟩), (some (("bob").toList), ⟨1, 0, 0, 3⟩),
        (some (("carol").toList), ⟨0, 0, 1, 1⟩)] := by
  constructor
  · intro wod scores htype hdate hteam hrx hnodup s hs
    have hm : computeMonthlyPoints [wod] scores = medalPhase [wod] scores := by
      unfold computeMonthlyPoints
      rw [buildRxMap_empty [wod] scores hrx]
      rfl
    have hfilter : scores.filter (fun s2 => s2.wod_date == wod.wod_date) = scores := by
      rw [List.filter_eq_self]
      intro s2 hs2
      rw [hdate s2 hs2]
      simp
    have hmp : medalPhase [wod] scores =
        awardBands [] (rankForDate scores WorkoutType.TIME) 1 := by
      unfold medalPhase
      rw [List.foldl_cons, List.foldl_nil, hfilter, htype]
    have hsolo2 : ∀ x ∈ scores, truthy x.team_id = false := by
      intro x hx
      rw [hteam x hx]
      rfl
    have hteamreps : teamRepsOf scores = [] := by
      unfold teamRepsOf
      have h1 : scores.filter (fun s2 => truthy s2.team_id) = [] := by
        rw [List.filter_eq_nil_iff]
        intro x hx
        simp [hsolo2 x hx]
      rw [h1]
      rfl
    have hindiv : individualsOf scores = scores := by
      unfold individualsOf
      have h1 : scores.filter (fun s2 => !truthy s2.team_id) = scores := by
        rw [List.filter_eq_self]
        intro x hx
        simp [hsolo2 x hx]
      rw [h1]
      exact dedupByKey_eq_self _ scores [] hnodup (by simp)
    have hrfd : rankForDate scores WorkoutType.TIME =
        bandGo scores WorkoutType.TIME
          (sortByLe (scoreLe WorkoutType.TIME) scores).length
          (sortByLe (scoreLe WorkoutType.TIME) scores) 1 := by
      unfold rankForDate
      have hguard : ((WorkoutType.TIME == WorkoutType.NO_SCORE) ||
          (WorkoutType.TIME == WorkoutType.UNKNOWN)) = false := rfl
      rw [hguard]
      simp only [Bool.false_eq_true, if_false, hteamreps, hindiv, List.nil_append]
      rfl
    have htot : ∀ x y, scoreLe WorkoutType.TIME x y = true ∨
        scoreLe WorkoutType.TIME y x = true := by
      intro x y
      rw [scoreLe_TIME, scoreLe_TIME]
      exact timeLeB_total _ _
    have htrans : ∀ x y z, scoreLe WorkoutType.TIME x y = true →
        scoreLe WorkoutType.TIME y z = true → scoreLe WorkoutType.TIME x z = true := by
      intro x y z h1 h2
      rw [scoreLe_TIME] at h1 h2 ⊢
      exact timeLeB_trans _ _ _ h1 h2
    have hperm := sortByLe_perm (scoreLe WorkoutType.TIME) scores
    have hsolo3 : ∀ x ∈ sortByLe (scoreLe WorkoutType.TIME) scores,
        truthy x.team_id = false :=
      fun x hx => hsolo2 x (hperm.mem_iff.mp hx)
    have hpw : (sortByLe (scoreLe WorkoutType.TIME) scores).Pairwise
        (fun x y => timeLeB x.time_seconds y.time_seconds = true) := by
      refine (sortByLe_pairwise (scoreLe WorkoutType.TIME) htot htrans scores).imp ?_
      intro a b h
      rwa [scoreLe_TIME] at h
    have hnodupL : ((sortByLe (scoreLe WorkoutType.TIME) scores).map
        (fun s => s.athlete_id)).Nodup :=
      (hperm.map _).nodup_iff.mpr hnodup
    have hsL : s ∈ sortByLe (scoreLe WorkoutType.TIME) scores := hperm.mem_iff.mpr hs
    have hmain := award_bandGo_time scores
      (sortByLe (scoreLe WorkoutType.TIME) scores).length
      (sortByLe (scoreLe WorkoutType.TIME) scores) 1 []
      (le_refl _) hsolo3 hpw hnodupL (le_refl 1) s hsL
    have hbeats : timeBeats (sortByLe (scoreLe WorkoutType.TIME) scores) s =
        timeBeats scores s := by
      unfold timeBeats
      exact (hperm.filter _).length_eq
    rw [hm, hmp, hrfd, hmain, hbeats]
    rfl
  · norm_num +decide [computeMonthlyPoints, medalPhase, buildRxMap, addRxBonus, rankForDate,
      bandLoop, bandGo, rawBand, teamRepsOf, individualsOf, dedupByKey, sortByLe, insertLe,
      scoreLe, timeLeB, tiedB, expandEntry, dedupIds, dedupAcc, awardBands, awardBand,
      pointsForRank, applyMedal, pmapUpd, pmapGet, pmapSet, truthy, getEffectiveType,
      rxQualifies, rxStep, Entry.zero, exAlice, exBob, exCarol, exWodTime]

/-- Witness for C1: the general conjunct applied at Scenario A to Carol,
whose record is beaten by two records (Alice's and Bob's tied 600 s), so
her position is 3 and she receives the bronze entry. -/
theorem claim_C1_witness :
    pmapGet (computeMonthlyPoints [exWodTime] [exAlice, exBob, exCarol])
        exCarol.athlete_id =
      if 1 + timeBeats [exAlice, exBob, exCarol] exCarol ≤ 3 then
        some (medalEntry (pointsForRank (1 + timeBeats [exAlice, exBob, exCarol] exCarol)))
      else none :=
  claim_C1.1 exWodTime [exAlice, exBob, exCarol] (by decide) (by decide) (by decide)
    (by decide) (by decide) exCarol (by decide)

end Saadiyat
